import Mathlib

/-!
GoCache: LRU store, consistent-hash ring, Group orchestration and HTTP pool

A shallow embedding of `gocache/lru/lru.go`, `gocache/consistenthash/consistenthash.go`,
`gocache/gocache.go` and `gocache/http.go`, followed by theorems about the embedded code.

Modelling conventions
* Go `int` / `int64` values are `Int`; every `int64` addition and subtraction of the
  source is followed by `wrap64`, the wrap-around of 64-bit two's complement arithmetic.
  `Value.Len()` is the `int` the value reports (it may be negative).
* A Go `map[K]T` is an association list with at most one binding per key.
* A `*list.Element` is an element carrying an identity `id`; the index of the LRU store
  holds these identities.
* A loop that Go may run forever takes a fuel argument and returns `none` when the fuel
  runs out before the loop condition turns false.
-/

namespace GoCache

/-! ## Go maps -/

namespace GoMap

variable {κ ν : Type} [DecidableEq κ]

/-- Go `v, ok := m[k]`: `some v` when `ok`. -/
def lookup : List (κ × ν) → κ → Option ν
  | [], _ => none
  | (k', v) :: m, k => if k' = k then some v else lookup m k

/-- Go `delete(m, k)`. -/
def erase (m : List (κ × ν)) (k : κ) : List (κ × ν) :=
  m.filter (fun p => !decide (p.1 = k))

/-- Go `m[k] = v`. -/
def insert (m : List (κ × ν)) (k : κ) (v : ν) : List (κ × ν) :=
  (k, v) :: erase m k

end GoMap

/-! ## `lru` package -/

namespace lru

/-- The Go interface `Value`: anything with a `Len() int`. -/
class Value (V : Type) where
  /-- Go `Len() int`. -/
  Len : V → Int

/-- Go `len(key)`: the number of bytes of the string. -/
def len (key : String) : Int := (key.utf8ByteSize : Int)

/-- The `int64` that an integer becomes by conversion or as the result of an `int64`
operation: its representative modulo `2^64` in `[-2^63, 2^63)`. -/
def wrap64 (x : Int) : Int :=
  (x + 9223372036854775808) % 18446744073709551616 - 9223372036854775808

/-- The largest `int64`, `math.MaxInt64`. -/
def MaxInt64 : Int := 9223372036854775807

/-- The least `int64`, `math.MinInt64`. -/
def MinInt64 : Int := -9223372036854775808

/-- The Go struct `entry`. -/
structure entry (V : Type) where
  key : String
  value : V

/-- A `*list.Element` of `container/list`: `id` is the identity of the element
(its address), `Value` the `*entry` it carries. -/
structure Element (V : Type) where
  id : Nat
  Value : entry V

/-- What an eviction callback can read of the store at the moment it is invoked: the
entries from most to least recently used, the keys of the index and the byte counter. -/
structure Snapshot (V : Type) where
  entries : List (String × V)
  index : List String
  nbytes : Int

/-- The Go type `func(key string, value Value)` of the eviction callback. A callback is a
closure: besides its two arguments it reads the store it was registered with (the
`Snapshot`) and acts on a state `σ` of the caller. -/
abbrev Callback (V σ : Type) := String → V → Snapshot V → σ → σ

/-- The Go struct `Cache`. `ll` is the linked list from front (most recently used) to
back; `cache` maps a key to the identity of its list element. `OnEvicted` acts on a
state `σ` of the caller, kept in `env`; `nextId` is the allocator of element identities
and `removeCalls` counts the calls of `RemoveOldest` (both are bookkeeping of the
model, not fields of the Go struct). -/
structure Cache (V σ : Type) where
  maxBytes : Int
  nbytes : Int
  ll : List (Element V)
  cache : List (String × Nat)
  OnEvicted : Option (Callback V σ)
  env : σ
  nextId : Nat
  removeCalls : Nat

variable {V σ : Type}

/-- The element of the list with identity `id`, if it is in the list. -/
def findElement (l : List (Element V)) (id : Nat) : Option (Element V) :=
  l.find? (fun e => decide (e.id = id))

/-- The `list.List` method `MoveToFront`: no effect when the element is not in the list. -/
def MoveToFront (l : List (Element V)) (id : Nat) : List (Element V) :=
  match findElement l id with
  | some e => e :: l.filter (fun x => !decide (x.id = id))
  | none => l

/-- The `list.List` method `PushFront`, with `id` the identity of the new element. -/
def PushFront (l : List (Element V)) (id : Nat) (kv : entry V) : List (Element V) :=
  ⟨id, kv⟩ :: l

/-- The `list.List` method `Back`: `none` is Go `nil`. -/
def Back (l : List (Element V)) : Option (Element V) :=
  l.getLast?

/-- The `list.List` method `Remove`. -/
def Remove (l : List (Element V)) (id : Nat) : List (Element V) :=
  l.filter (fun x => !decide (x.id = id))

/-- The assignment `kv.value = value` through the `*entry` of element `id`. -/
def setValue (l : List (Element V)) (id : Nat) (value : V) : List (Element V) :=
  l.map (fun e => if e.id = id then { e with Value := { e.Value with value := value } } else e)

/-- Go `New(maxBytes, onEvicted)`; `env` is the initial state the callback acts on. -/
def New (maxBytes : Int) (onEvicted : Option (Callback V σ)) (env : σ) : Cache V σ :=
  { maxBytes := maxBytes, nbytes := 0, ll := [], cache := [], OnEvicted := onEvicted,
    env := env, nextId := 0, removeCalls := 0 }

/-- The store as a callback invoked at this moment reads it. -/
def observe (c : Cache V σ) : Snapshot V :=
  { entries := c.ll.map (fun e => (e.Value.key, e.Value.value))
    index := c.cache.map Prod.fst
    nbytes := c.nbytes }

/-- Go `(c *Cache) RemoveOldest()`. The callback is invoked after the three updates and
reads the store they have produced. -/
def RemoveOldest [Value V] (c : Cache V σ) : Cache V σ :=
  match Back c.ll with
  | some element =>
    let kv := element.Value
    let c1 : Cache V σ :=
      { c with
        ll := Remove c.ll element.id
        cache := GoMap.erase c.cache kv.key
        nbytes := wrap64 (c.nbytes - wrap64 (wrap64 (len kv.key) + wrap64 (Value.Len kv.value)))
        removeCalls := c.removeCalls + 1 }
    match c.OnEvicted with
    | some f => { c1 with env := f kv.key kv.value (observe c1) c1.env }
    | none => c1
  | none => { c with removeCalls := c.removeCalls + 1 }

/-- The first statement of Go `Add` (the `if`/`else` before the eviction loop). When the
index holds `key`, its element is moved to the front and its value replaced; otherwise a
new element is pushed to the front. The branch where the index names an element that is
not in the list cannot be reached (see `Inv`). -/
def addEntry [Value V] (c : Cache V σ) (key : String) (value : V) : Cache V σ :=
  match GoMap.lookup c.cache key with
  | some id =>
    let ll1 := MoveToFront c.ll id
    match findElement ll1 id with
    | some element =>
      { c with
        ll := setValue ll1 id value
        nbytes := wrap64 (c.nbytes
          + wrap64 (wrap64 (Value.Len value) - wrap64 (Value.Len element.Value.value))) }
    | none => c
  | none =>
    { c with
      ll := PushFront c.ll c.nextId ⟨key, value⟩
      cache := GoMap.insert c.cache key c.nextId
      nbytes := wrap64 (c.nbytes + wrap64 (wrap64 (len key) + wrap64 (Value.Len value)))
      nextId := c.nextId + 1 }

/-- The eviction loop of Go `Add`: `for c.maxBytes != 0 && c.maxBytes < c.nbytes`. -/
def evictLoop [Value V] : Nat → Cache V σ → Option (Cache V σ)
  | fuel, c =>
    if c.maxBytes ≠ 0 ∧ c.maxBytes < c.nbytes then
      match fuel with
      | 0 => none
      | fuel + 1 => evictLoop fuel (RemoveOldest c)
    else some c

/-- Go `(c *Cache) Add(key, value)`: `none` when the eviction loop does not stop within
`fuel` iterations. -/
def Add [Value V] (fuel : Nat) (c : Cache V σ) (key : String) (value : V) :
    Option (Cache V σ) :=
  evictLoop fuel (addEntry c key value)

/-- Go `(c *Cache) Get(key)`: the value (`some v` when `ok`) and the store afterwards. -/
def Get (c : Cache V σ) (key : String) : Option V × Cache V σ :=
  match GoMap.lookup c.cache key with
  | some id =>
    let ll1 := MoveToFront c.ll id
    match findElement ll1 id with
    | some element => (some element.Value.value, { c with ll := ll1 })
    | none => (none, c)
  | none => (none, c)

/-- Go `(c *Cache) Len()`. -/
def Len (c : Cache V σ) : Nat := c.ll.length

/-- The entries of the store, most recently used first. -/
def entries (c : Cache V σ) : List (String × V) :=
  c.ll.map (fun e => (e.Value.key, e.Value.value))

/-- The accounted size of one entry: `len(key) + value.Len()`. -/
def cost [Value V] (p : String × V) : Int := len p.1 + Value.Len p.2

/-- A string value whose `Len` is its number of bytes. -/
instance : Value String where
  Len s := len s

/-- A value that reports the integer it holds as its `Len`. -/
instance : Value Int where
  Len n := n

/-- The accounted size of the elements of a list. -/
def sumCost [Value V] (l : List (Element V)) : Int :=
  (l.map (fun e => len e.Value.key + Value.Len e.Value.value)).sum

/-- Consistency of the list and the index of a store, and of its byte counter: `nbytes`
is the sum of the accounted sizes as an `int64`. -/
structure Inv [Value V] (c : Cache V σ) : Prop where
  ids_nodup : (c.ll.map (fun e => e.id)).Nodup
  keys_nodup : (c.ll.map (fun e => e.Value.key)).Nodup
  index : ∀ k i, GoMap.lookup c.cache k = some i ↔ ∃ e ∈ c.ll, e.id = i ∧ e.Value.key = k
  fresh : ∀ e ∈ c.ll, e.id < c.nextId
  index_nodup : (c.cache.map Prod.fst).Nodup
  nbytes_eq : c.nbytes = wrap64 (sumCost c.ll)

/-- The stores that calls of `Add`, `Get` and `RemoveOldest` produce from
`New maxBytes onEvicted`. -/
inductive Reachable [Value V] (maxBytes : Int) (onEvicted : Option (Callback V σ))
    (env : σ) : Cache V σ → Prop
  | new : Reachable maxBytes onEvicted env (New maxBytes onEvicted env)
  | add {c c' : Cache V σ} (fuel : Nat) (key : String) (value : V) :
      Reachable maxBytes onEvicted env c → Add fuel c key value = some c' →
      Reachable maxBytes onEvicted env c'
  | get {c : Cache V σ} (key : String) :
      Reachable maxBytes onEvicted env c → Reachable maxBytes onEvicted env (Get c key).2
  | removeOldest {c : Cache V σ} :
      Reachable maxBytes onEvicted env c → Reachable maxBytes onEvicted env (RemoveOldest c)

end lru

/-! ## Sequences of `Add` and their reference result -/

namespace lru

variable {V σ : Type}

/-- The accounted size of a sequence of entries. -/
def totalCost [Value V] (l : List (String × V)) : Int :=
  (l.map (fun p => len p.1 + Value.Len p.2)).sum

/-- The longest suffix of `seq` whose total cost is at most `maxBytes`: the first of the
suffixes `seq`, `seq.tail`, ... that fits. -/
def longestFittingSuffix [Value V] (maxBytes : Int) : List (String × V) → List (String × V)
  | [] => []
  | p :: rest =>
    if totalCost (p :: rest) ≤ maxBytes then p :: rest else longestFittingSuffix maxBytes rest

/-- The statement that `S` is the longest suffix of `seq` whose total cost is at most
`maxBytes`. -/
structure IsLongestFittingSuffix [Value V] (maxBytes : Int) (seq S : List (String × V)) :
    Prop where
  suffix : S <:+ seq
  fits : totalCost S ≤ maxBytes
  longest : ∀ T : List (String × V), T <:+ seq → totalCost T ≤ maxBytes → T.length ≤ S.length

end lru

/-! ## `consistenthash` package -/

namespace consistenthash

/-- Go `type Hash func(data []byte) uint32`. The argument is the string whose bytes are
hashed (every call site passes `[]byte(s)` for a string `s`); the result is read
modulo `2^32` where it is converted to `int`. -/
abbrev Hash := String → Nat

/-- One byte of the CRC-32 computation with the reversed IEEE polynomial. -/
def crcByte (crc b : Nat) : Nat :=
  (List.range 8).foldl
    (fun c _ => if c % 2 = 1 then Nat.xor (c / 2) 0xEDB88320 else c / 2) (Nat.xor crc b)

/-- The standard library function `crc32.ChecksumIEEE`, the default hash of `New`. -/
def ChecksumIEEE : Hash := fun s =>
  Nat.xor (s.toUTF8.toList.foldl (fun c b => crcByte c b.toNat) 0xFFFFFFFF) 0xFFFFFFFF

/-- The Go struct `Map`: `keys` is the ring, `hashMap` maps the hash of a virtual node to
the name of its real node. -/
structure Map where
  hash : Hash
  replicas : Int
  keys : List Int
  hashMap : List (Int × String)

/-- Go `New(replicas, fn)`; `none` is a `nil` hash function. -/
def New (replicas : Int) (fn : Option Hash) : Map :=
  { replicas := replicas
    hash := match fn with
      | some f => f
      | none => ChecksumIEEE
    keys := []
    hashMap := [] }

/-- Go `int(fn([]byte(s)))`: a `uint32` converted to `int`. -/
def hashInt (fn : Hash) (s : String) : Int := ((fn s % 4294967296 : Nat) : Int)

/-- The standard library function `sort.Ints`: the ascending rearrangement of the list. -/
def sortInts (l : List Int) : List Int := l.insertionSort (fun a b => a ≤ b)

/-- One iteration of the inner loop of Go `Add`, for replica number `i` of `key`. -/
def addReplica (m : Map) (key : String) (i : Nat) : Map :=
  let hash := hashInt m.hash (toString i ++ key)
  { m with keys := m.keys ++ [hash], hashMap := GoMap.insert m.hashMap hash key }

/-- The inner loop of Go `Add`: `for i := 0; i < m.replicas; i++`. -/
def addKey (m : Map) (key : String) : Map :=
  (List.range m.replicas.toNat).foldl (fun m i => addReplica m key i) m

/-- Go `(m *Map) Add(keys ...string)`. -/
def Add (m : Map) (keys : List String) : Map :=
  let m' := keys.foldl addKey m
  { m' with keys := sortInts m'.keys }

/-- The loop of the standard library function `sort.Search`, on the interval `[i, j)`.
The interval shrinks in every iteration, so `fuel = j - i` iterations are enough. -/
def searchLoop (f : Nat → Bool) : Nat → Nat → Nat → Nat
  | 0, i, _ => i
  | fuel + 1, i, j =>
    if i < j then
      let h := (i + j) / 2
      if !f h then searchLoop f fuel (h + 1) j else searchLoop f fuel i h
    else i

/-- The standard library function `sort.Search(n, f)`. -/
def Search (n : Nat) (f : Nat → Bool) : Nat := searchLoop f n 0 n

/-- Go `m[k]` on a `map[int]string`: the empty string when `k` is not a key. -/
def index (hashMap : List (Int × String)) (k : Int) : String :=
  match GoMap.lookup hashMap k with
  | some peer => peer
  | none => ""

/-- Go `(m *Map) Get(key)`. -/
def Get (m : Map) (key : String) : String :=
  if m.keys.length = 0 then ""
  else
    let hash := hashInt m.hash key
    let idx := Search m.keys.length (fun i => decide (m.keys.getD i 0 ≥ hash))
    index m.hashMap (m.keys.getD (idx % m.keys.length) 0)

/-- The ring after `New(replicas, fn)` and one call of `Add` per element of `batches`. -/
def build (replicas : Int) (fn : Option Hash) (batches : List (List String)) : Map :=
  batches.foldl Add (New replicas fn)

/-- The hashes of the virtual nodes of `peer`, replica 0 first. -/
def virtualNodes (fn : Hash) (replicas : Int) (peer : String) : List Int :=
  (List.range replicas.toNat).map (fun i => hashInt fn (toString i ++ peer))

/-- Every binding of `hashMap` maps the hash of a virtual node to its own peer, one of
`peers`. -/
def Owned (m : Map) (peers : List String) : Prop :=
  ∀ h p, GoMap.lookup m.hashMap h = some p →
    p ∈ peers ∧ h ∈ virtualNodes m.hash m.replicas p

/-- Every ring value is a key of `hashMap`. -/
def Indexed (m : Map) : Prop :=
  ∀ h ∈ m.keys, (GoMap.lookup m.hashMap h).isSome

/-- The state of a ring to which the names `peers` have been added. -/
structure RingInv (m : Map) (peers : List String) : Prop where
  sorted : m.keys.Sorted (fun a b => a ≤ b)
  keys_perm : List.Perm m.keys (peers.flatMap (virtualNodes m.hash m.replicas))
  owned : Owned m peers
  indexed : Indexed m

/-- The smallest element of a list of ring values. -/
def smallest : List Int → Option Int
  | [] => none
  | x :: xs =>
    match smallest xs with
    | none => some x
    | some y => some (min x y)

/-- The reference lookup of the specification: the smallest ring value that is at least
`h`, or the smallest ring value overall when `h` exceeds every ring value. -/
def successor (keys : List Int) (h : Int) : Option Int :=
  match smallest (keys.filter (fun v => decide (h ≤ v))) with
  | some v => some v
  | none => smallest keys

/-- The reference `Get` of the specification: the peer of the successor of `hash(key)`. -/
def GetRef (m : Map) (key : String) : String :=
  match successor m.keys (hashInt m.hash key) with
  | some v => index m.hashMap v
  | none => ""

end consistenthash

/-! ## `gocache` package: values, the concurrent cache and groups -/

namespace gocache

/-- Modelled from the spec: the type `ByteView` (its file is not among the sources), the
immutable byte sequence of the data model, with its length as only accounting
operation. -/
structure ByteView where
  b : List UInt8
  deriving DecidableEq

/-- Modelled from the spec: `ByteView.Len`, the length of the byte sequence. -/
instance : lru.Value ByteView where
  Len v := (v.b.length : Int)

/-- Modelled from the spec: `cloneBytes`, the defensive copy of the loaded bytes. -/
def cloneBytes (b : List UInt8) : List UInt8 := b

/-- Modelled from the spec: the type `cache` (the concurrent cache of the specification;
its file is not among the sources). It holds the byte budget and the eviction store,
which is constructed on first use; `none` is the store not yet constructed. The lock is
not part of the model: calls are taken one after the other. -/
structure cache where
  cacheBytes : Int
  lru : Option (lru.Cache ByteView Unit)

/-- Modelled from the spec: the eviction store of a `cache`, constructed with the byte
budget and no eviction callback when it does not exist yet. -/
def cache.store (c : cache) : lru.Cache ByteView Unit :=
  match c.lru with
  | some l => l
  | none => lru.New c.cacheBytes none ()

/-- Modelled from the spec: `cache.add`, the `Add` of the eviction store. -/
def cache.add (fuel : Nat) (c : cache) (key : String) (value : ByteView) : Option cache :=
  match lru.Add fuel c.store key value with
  | some l => some { c with lru := some l }
  | none => none

/-- Modelled from the spec: `cache.get`, the `Get` of the eviction store. -/
def cache.get (c : cache) (key : String) : Option ByteView × cache :=
  ((lru.Get c.store key).1, { c with lru := some (lru.Get c.store key).2 })

/-- A Go `error`: a value made by `fmt.Errorf` from a message, or any other error value. -/
inductive GoError (ε : Type) where
  | errorf (msg : String)
  | other (e : ε)

/-- The Go interface `Getter`: `Get(key)` returns bytes and an error (`none` is `nil`).
A loader may read and change a state `σ` of its own. -/
abbrev Getter (ε σ : Type) := String → σ → (List UInt8 × Option (GoError ε)) × σ

/-- The Go struct `Group`. `world` is the state of the loader and `loads` the keys with
which the loader has been invoked, oldest first (both belong to the model, not to the Go
struct). -/
structure Group (ε σ : Type) where
  name : String
  getter : Getter ε σ
  mainCache : cache
  world : σ
  loads : List String

variable {ε σ : Type}

/-- Go `NewGroup(name, cacheBytes, getter)` on the registry `groups`; `none` is the panic
on a `nil` getter. -/
def NewGroup (groups : List (String × Group ε σ)) (name : String) (cacheBytes : Int)
    (getter : Option (Getter ε σ)) (world : σ) :
    Option (Group ε σ × List (String × Group ε σ)) :=
  match getter with
  | none => none
  | some gt =>
    let g : Group ε σ :=
      { name := name, getter := gt, mainCache := { cacheBytes := cacheBytes, lru := none },
        world := world, loads := [] }
    some (g, GoMap.insert groups name g)

/-- Go `GetGroup(name)`; `none` is `nil`. -/
def GetGroup (groups : List (String × Group ε σ)) (name : String) : Option (Group ε σ) :=
  GoMap.lookup groups name

/-- Go `(g *Group) populateCache(key, value)`. -/
def Group.populateCache (fuel : Nat) (g : Group ε σ) (key : String) (value : ByteView) :
    Option (Group ε σ) :=
  match g.mainCache.add fuel key value with
  | some c => some { g with mainCache := c }
  | none => none

/-- Go `(g *Group) getLocally(key)`: the returned pair and the group afterwards. -/
def Group.getLocally (fuel : Nat) (g : Group ε σ) (key : String) :
    Option ((ByteView × Option (GoError ε)) × Group ε σ) :=
  let r := g.getter key g.world
  let g1 : Group ε σ := { g with world := r.2, loads := g.loads ++ [key] }
  match r.1.2 with
  | some err => some ((⟨[]⟩, some err), g1)
  | none =>
    let value : ByteView := ⟨cloneBytes r.1.1⟩
    match g1.populateCache fuel key value with
    | some g2 => some ((value, none), g2)
    | none => none

/-- Go `(g *Group) load(key)`. -/
def Group.load (fuel : Nat) (g : Group ε σ) (key : String) :
    Option ((ByteView × Option (GoError ε)) × Group ε σ) :=
  g.getLocally fuel key

/-- Go `(g *Group) Get(key)`: the returned pair and the group afterwards; `none` when the
eviction loop of the store does not stop within `fuel` iterations. The log lines are
left out. -/
def Group.Get (fuel : Nat) (g : Group ε σ) (key : String) :
    Option ((ByteView × Option (GoError ε)) × Group ε σ) :=
  if key = "" then some ((⟨[]⟩, some (GoError.errorf "key is empty")), g)
  else
    match (g.mainCache.get key).1 with
    | some v => some ((v, none), { g with mainCache := (g.mainCache.get key).2 })
    | none => Group.load fuel { g with mainCache := (g.mainCache.get key).2 } key

/-- The groups that `NewGroup` creates and calls of `Get` produce. -/
inductive Group.Reachable : Group ε σ → Prop
  | new {groups groups' : List (String × Group ε σ)} {name : String} {cacheBytes : Int}
      {getter : Option (Getter ε σ)} {world : σ} {g : Group ε σ} :
      NewGroup groups name cacheBytes getter world = some (g, groups') → Group.Reachable g
  | get {g g' : Group ε σ} {r : ByteView × Option (GoError ε)} (fuel : Nat) (key : String) :
      Group.Reachable g → Group.Get fuel g key = some (r, g') → Group.Reachable g'

/-- A loader for the examples: it fails on the key `bad` and returns the bytes 1, 2, 3 for
every other key. -/
def exampleGetter : Getter Unit Unit := fun key w =>
  if key = "bad" then (([], some (GoError.other ())), w) else (([1, 2, 3], none), w)

/-- The group `NewGroup("scores", 10, exampleGetter)` of the examples. -/
def exampleGroup : Group Unit Unit :=
  { name := "scores", getter := exampleGetter, mainCache := { cacheBytes := 10, lru := none },
    world := (), loads := [] }

end gocache

/-! ## Sequences of calls of `Add` and `Get` -/

namespace lru

variable {V σ : Type}

/-- A call of `Add` or of `Get`. -/
inductive Call (V : Type) where
  | add (key : String) (value : V)
  | get (key : String)

/-- The store after a sequence of calls of `Add` and `Get`, each `Add` with `fuel` for its
eviction loop. -/
def runCalls [Value V] (fuel : Nat) : Cache V σ → List (Call V) → Option (Cache V σ)
  | c, [] => some c
  | c, Call.add k v :: rest =>
    match Add fuel c k v with
    | some c' => runCalls fuel c' rest
    | none => none
  | c, Call.get k :: rest => runCalls fuel (Get c k).2 rest

/-- The value of the last `Add(key, _)` in a sequence of calls. -/
def lastAdded : List (Call V) → String → Option V
  | [], _ => none
  | Call.add k v :: rest, key =>
    match lastAdded rest key with
    | some w => some w
    | none => if k = key then some v else none
  | Call.get _ :: rest, key => lastAdded rest key

/-- The keys of the calls of `Add` in a sequence of calls, in the order of the calls. -/
def addedKeys : List (Call V) → List String
  | [] => []
  | Call.add k _ :: rest => k :: addedKeys rest
  | Call.get _ :: rest => addedKeys rest

/-- An eviction callback for the examples: it appends to a log the evicted pair together
with what it reads of the store, the keys of the entries and the byte counter. -/
def logEviction : Callback V (List (String × V × List String × Int)) :=
  fun key value seen log => log ++ [(key, value, seen.entries.map Prod.fst, seen.nbytes)]

end lru

/-! ## `gocache` package: the HTTP pool -/

namespace gocache

variable {ε σ : Type}

/-- Go `const defaultBasePath`. -/
def defaultBasePath : String := "/api/"

/-- The Go struct `HTTPPool`. -/
structure HTTPPool where
  self : String
  basePath : String

/-- Go `NewHTTPPool(self)`. -/
def NewHTTPPool (self : String) : HTTPPool :=
  { self := self, basePath := defaultBasePath }

/-- The body a handler has written: text or raw bytes. -/
inductive Body where
  | text (s : String)
  | bytes (b : List UInt8)

/-- What a handler has written to its `http.ResponseWriter`: the status code, the
`Content-Type` header and the body. -/
structure Response where
  status : Nat
  contentType : String
  body : Body

/-- The constant `http.StatusBadRequest`. -/
def StatusBadRequest : Nat := 400

/-- The constant `http.StatusNotFound`. -/
def StatusNotFound : Nat := 404

/-- The constant `http.StatusInternalServerError`. -/
def StatusInternalServerError : Nat := 500

/-- The constant `http.StatusOK`, the status of a reply that writes its body without
setting a code. -/
def StatusOK : Nat := 200

/-- The standard library function `http.Error(w, error, code)`: a plain-text reply with
the given code and the message followed by a newline. -/
def httpError (error : String) (code : Nat) : Response :=
  { status := code, contentType := "text/plain; charset=utf-8", body := Body.text (error ++ "\n") }

/-- The standard library call `strings.SplitN(s, "/", 2)`: `s` itself when it holds no
slash, else the part before the first slash and the part after it. -/
def splitAtSlash (s : String) : List String :=
  if '/' ∈ s.toList then
    [String.mk (s.toList.takeWhile (fun ch => ch != '/')),
     String.mk ((s.toList.dropWhile (fun ch => ch != '/')).drop 1)]
  else [s]

/-- Modelled from the spec: `ByteView.ByteSlice`, a copy of the bytes of the value. -/
def ByteView.ByteSlice (v : ByteView) : List UInt8 := cloneBytes v.b

/-- Go `err.Error()`: the message of an error; `describe` gives the message of the error
values that were not made by `fmt.Errorf`. -/
def GoError.Error (describe : ε → String) : GoError ε → String
  | GoError.errorf msg => msg
  | GoError.other e => describe e

/-- The outcome of a call of `ServeHTTP`: a panic, or a reply together with the registry
of groups afterwards. -/
inductive Served (ε σ : Type) where
  | panicked (msg : String)
  | replied (r : Response) (groups : List (String × Group ε σ))

/-- Go `(p *HTTPPool) ServeHTTP(w, r)` for a request with URL path `path`, on the
registry `groups`. A group is a pointer in Go: the state in which `group.Get` leaves the
group is written back to the registry under the name it was found with. `none` when the
eviction loop of the store does not stop within `fuel` iterations. The log line is left
out. -/
def HTTPPool.ServeHTTP (fuel : Nat) (describe : ε → String) (p : HTTPPool)
    (groups : List (String × Group ε σ)) (path : String) : Option (Served ε σ) :=
  if !(p.basePath.toList.isPrefixOf path.toList) then
    some (Served.panicked ("HTTPPool serving unexpected path: " ++ path))
  else
    let parts := splitAtSlash (String.mk (path.toList.drop p.basePath.toList.length))
    if parts.length ≠ 2 then
      some (Served.replied (httpError "bad request" StatusBadRequest) groups)
    else
      let groupName := parts.getD 0 ""
      let key := parts.getD 1 ""
      match GetGroup groups groupName with
      | none =>
        some (Served.replied (httpError ("no such group: " ++ groupName) StatusNotFound) groups)
      | some group =>
        match group.Get fuel key with
        | none => none
        | some ((_, some err), group') =>
          some (Served.replied (httpError (err.Error describe) StatusInternalServerError)
            (GoMap.insert groups groupName group'))
        | some ((view, none), group') =>
          some (Served.replied
            { status := StatusOK, contentType := "application/octet-stream",
              body := Body.bytes view.ByteSlice }
            (GoMap.insert groups groupName group'))

end gocache

/-! ## Lemmas on Go maps -/

namespace GoMap

variable {κ ν : Type} [DecidableEq κ]

theorem erase_cons (a : κ) (b : ν) (m : List (κ × ν)) (k : κ) :
    erase ((a, b) :: m) k = if a = k then erase m k else (a, b) :: erase m k := by
  unfold erase
  by_cases h : a = k <;> simp [List.filter_cons, h]

theorem lookup_erase (m : List (κ × ν)) (k k' : κ) :
    lookup (erase m k) k' = if k = k' then none else lookup m k' := by
  induction m with
  | nil => simp [erase, lookup]
  | cons p m ih =>
    obtain ⟨a, b⟩ := p
    rw [erase_cons]
    by_cases h : a = k
    · rw [if_pos h, ih]
      subst h
      by_cases h2 : a = k' <;> simp [lookup, h2]
    · rw [if_neg h]
      simp only [lookup]
      rw [ih]
      by_cases h2 : a = k'
      · subst h2
        simp [Ne.symm h]
      · simp [h2]

theorem lookup_insert (m : List (κ × ν)) (k k' : κ) (v : ν) :
    lookup (insert m k v) k' = if k = k' then some v else lookup m k' := by
  unfold insert
  by_cases h : k = k'
  · simp [lookup, h]
  · simp [lookup, h, lookup_erase]

theorem lookup_isSome_iff (m : List (κ × ν)) (k : κ) :
    (lookup m k).isSome ↔ k ∈ m.map Prod.fst := by
  induction m with
  | nil => simp [lookup]
  | cons p m ih =>
    obtain ⟨a, b⟩ := p
    by_cases h : a = k
    · simp [lookup, h]
    · simp only [lookup, h, if_false, List.map_cons, List.mem_cons]
      rw [ih]
      constructor
      · intro h1; exact Or.inr h1
      · rintro (h1 | h1)
        · exact absurd h1.symm h
        · exact h1

theorem keys_erase_nodup (m : List (κ × ν)) (k : κ) (h : (m.map Prod.fst).Nodup) :
    ((erase m k).map Prod.fst).Nodup := by
  unfold erase
  exact h.sublist ((List.filter_sublist m).map Prod.fst)

theorem not_mem_keys_erase (m : List (κ × ν)) (k : κ) :
    k ∉ (erase m k).map Prod.fst := by
  unfold erase
  simp [List.mem_map, List.mem_filter]

theorem keys_insert_nodup (m : List (κ × ν)) (k : κ) (v : ν) (h : (m.map Prod.fst).Nodup) :
    ((insert m k v).map Prod.fst).Nodup := by
  unfold insert
  simp only [List.map_cons, List.nodup_cons]
  exact ⟨not_mem_keys_erase m k, keys_erase_nodup m k h⟩

theorem erase_of_not_mem (m : List (κ × ν)) (k : κ) (h : k ∉ m.map Prod.fst) :
    erase m k = m := by
  unfold erase
  rw [List.filter_eq_self]
  intro p hp
  simp only [Bool.not_eq_true', decide_eq_false_iff_not]
  intro hk
  exact h (List.mem_map.mpr ⟨p, hp, hk⟩)

end GoMap


/-! ## Lemmas on `int64` arithmetic -/

namespace lru

theorem wrap64_zero : wrap64 0 = 0 := by
  unfold wrap64
  omega

theorem wrap64_inRange {x : Int} (h1 : MinInt64 ≤ x) (h2 : x ≤ MaxInt64) :
    wrap64 x = x := by
  unfold wrap64
  unfold MinInt64 at h1
  unfold MaxInt64 at h2
  omega

theorem wrap64_bounds (x : Int) : MinInt64 ≤ wrap64 x ∧ wrap64 x ≤ MaxInt64 := by
  unfold wrap64 MinInt64 MaxInt64
  omega

theorem wrap64_le_of_nonneg {x : Int} (h : 0 ≤ x) : wrap64 x ≤ x := by
  unfold wrap64
  omega

theorem wrap64_add_terms (n a b : Int) :
    wrap64 (n + wrap64 (wrap64 a + wrap64 b)) = wrap64 (n + (a + b)) := by
  unfold wrap64
  omega

theorem wrap64_sub_terms (n a b : Int) :
    wrap64 (n - wrap64 (wrap64 a + wrap64 b)) = wrap64 (n - (a + b)) := by
  unfold wrap64
  omega

theorem wrap64_add_diff (n a b : Int) :
    wrap64 (n + wrap64 (wrap64 a - wrap64 b)) = wrap64 (n + (a - b)) := by
  unfold wrap64
  omega

theorem wrap64_wrap_add (n x : Int) : wrap64 (wrap64 n + x) = wrap64 (n + x) := by
  unfold wrap64
  omega

theorem wrap64_wrap_sub (n x : Int) : wrap64 (wrap64 n - x) = wrap64 (n - x) := by
  unfold wrap64
  omega

end lru

/-! ## Lemmas on the linked list -/

namespace lru

variable {V σ : Type}

theorem filter_ne_perm {α β : Type} [DecidableEq β] (f : α → β) {l : List α}
    (hn : (l.map f).Nodup) {e : α} (he : e ∈ l) :
    List.Perm (e :: l.filter (fun x => !decide (f x = f e))) l := by
  induction l with
  | nil => simp at he
  | cons x t ih =>
    simp only [List.map_cons, List.nodup_cons] at hn
    by_cases hx : f x = f e
    · have hex : e = x := by
        rcases List.mem_cons.mp he with h | h
        · exact h
        · exact absurd (hx ▸ List.mem_map_of_mem f h) hn.1
      subst hex
      have ht : t.filter (fun x => !decide (f x = f e)) = t := by
        rw [List.filter_eq_self]
        intro y hy
        simp only [Bool.not_eq_true', decide_eq_false_iff_not]
        intro hye
        exact hn.1 (hye ▸ List.mem_map_of_mem f hy)
      rw [List.filter_cons]
      simp [ht]
    · have het : e ∈ t := by
        rcases List.mem_cons.mp he with h | h
        · exact absurd (h ▸ rfl) hx
        · exact h
      have h1 : (x :: t).filter (fun x => !decide (f x = f e))
          = x :: t.filter (fun x => !decide (f x = f e)) := by
        simp [List.filter_cons, hx]
      rw [h1]
      exact (List.Perm.swap x e _).trans ((ih hn.2 het).cons x)

theorem findElement_some {l : List (Element V)} {i : Nat} {e : Element V}
    (h : findElement l i = some e) : e ∈ l ∧ e.id = i := by
  unfold findElement at h
  exact ⟨List.mem_of_find?_eq_some h, by simpa using List.find?_some h⟩

theorem findElement_of_mem {l : List (Element V)} (hn : (l.map (fun e => e.id)).Nodup)
    {e : Element V} (he : e ∈ l) : findElement l e.id = some e := by
  cases hf : findElement l e.id with
  | none =>
    unfold findElement at hf
    rw [List.find?_eq_none] at hf
    exact absurd (by simp) (hf e he)
  | some x =>
    obtain ⟨hx, hxi⟩ := findElement_some hf
    rw [List.inj_on_of_nodup_map hn hx he hxi]

theorem filter_id_eq_filter_key {l : List (Element V)}
    (hi : (l.map (fun e => e.id)).Nodup) (hk : (l.map (fun e => e.Value.key)).Nodup)
    {e : Element V} (he : e ∈ l) :
    l.filter (fun x => !decide (x.id = e.id))
      = l.filter (fun x => !decide (x.Value.key = e.Value.key)) := by
  apply List.filter_congr
  intro x hx
  have h1 : x.id = e.id ↔ x.Value.key = e.Value.key :=
    ⟨fun h => by rw [List.inj_on_of_nodup_map hi hx he h],
     fun h => by rw [List.inj_on_of_nodup_map hk hx he h]⟩
  simp [h1]

theorem setValue_filter (l : List (Element V)) (i : Nat) (v : V) :
    setValue (l.filter (fun x => !decide (x.id = i))) i v
      = l.filter (fun x => !decide (x.id = i)) := by
  unfold setValue
  conv_rhs => rw [← List.map_id (l.filter (fun x => !decide (x.id = i)))]
  apply List.map_congr_left
  intro x hx
  have := (List.mem_filter.mp hx).2
  simp only [Bool.not_eq_true', decide_eq_false_iff_not] at this
  simp [this]

theorem filter_last {l : List (Element V)} {e : Element V}
    (hi : ((l ++ [e]).map (fun e => e.id)).Nodup) :
    (l ++ [e]).filter (fun x => !decide (x.id = e.id)) = l := by
  rw [List.map_append, List.nodup_append] at hi
  obtain ⟨_, _, hd⟩ := hi
  rw [List.filter_append]
  have h1 : l.filter (fun x => !decide (x.id = e.id)) = l := by
    rw [List.filter_eq_self]
    intro y hy
    simp only [Bool.not_eq_true', decide_eq_false_iff_not]
    intro hye
    exact hd (List.mem_map_of_mem (fun e => e.id) hy) (by simp [hye])
  rw [h1]
  simp

end lru


/-! ## The operations of the store under the invariant -/

namespace lru

variable {V σ : Type}

theorem index_lookup_of_mem [Value V] {c : Cache V σ} (h : Inv c) {e : Element V}
    (he : e ∈ c.ll) : GoMap.lookup c.cache e.Value.key = some e.id :=
  (h.index _ _).mpr ⟨e, he, rfl, rfl⟩

theorem index_lookup_none [Value V] {c : Cache V σ} (h : Inv c) {k : String}
    (hk : k ∉ c.ll.map (fun e => e.Value.key)) : GoMap.lookup c.cache k = none := by
  cases hl : GoMap.lookup c.cache k with
  | none => rfl
  | some i =>
    obtain ⟨e, he, _, hek⟩ := (h.index k i).mp hl
    exact absurd (hek ▸ List.mem_map_of_mem (fun e => e.Value.key) he) hk

theorem MoveToFront_mem {l : List (Element V)} (hi : (l.map (fun e => e.id)).Nodup)
    (hk : (l.map (fun e => e.Value.key)).Nodup) {e : Element V} (he : e ∈ l) :
    MoveToFront l e.id
      = e :: l.filter (fun x => !decide (x.Value.key = e.Value.key)) := by
  unfold MoveToFront
  rw [findElement_of_mem hi he, filter_id_eq_filter_key hi hk he]

theorem findElement_head (e : Element V) (t : List (Element V)) :
    findElement (e :: t) e.id = some e := by
  simp [findElement]

theorem setValue_moved {l : List (Element V)} (hi : (l.map (fun e => e.id)).Nodup)
    (hk : (l.map (fun e => e.Value.key)).Nodup) {e : Element V} (he : e ∈ l) (v : V) :
    setValue (e :: l.filter (fun x => !decide (x.Value.key = e.Value.key))) e.id v
      = ⟨e.id, ⟨e.Value.key, v⟩⟩
          :: l.filter (fun x => !decide (x.Value.key = e.Value.key)) := by
  rw [← filter_id_eq_filter_key hi hk he]
  have h1 := setValue_filter l e.id v
  unfold setValue at h1 ⊢
  rw [List.map_cons, h1]
  simp

theorem addEntry_hit [Value V] {c : Cache V σ} (h : Inv c) {e : Element V}
    (he : e ∈ c.ll) (v : V) :
    addEntry c e.Value.key v =
      { c with
        ll := ⟨e.id, ⟨e.Value.key, v⟩⟩
                :: c.ll.filter (fun x => !decide (x.Value.key = e.Value.key))
        nbytes := wrap64 (c.nbytes + (Value.Len v - Value.Len e.Value.value)) } := by
  unfold addEntry
  rw [index_lookup_of_mem h he]
  simp only
  rw [MoveToFront_mem h.ids_nodup h.keys_nodup he, findElement_head]
  simp only
  rw [setValue_moved h.ids_nodup h.keys_nodup he, wrap64_add_diff]

theorem addEntry_miss [Value V] {c : Cache V σ} (h : Inv c) {k : String}
    (hk : k ∉ c.ll.map (fun e => e.Value.key)) (v : V) :
    addEntry c k v =
      { c with
        ll := ⟨c.nextId, ⟨k, v⟩⟩ :: c.ll
        cache := GoMap.insert c.cache k c.nextId
        nbytes := wrap64 (c.nbytes + (len k + Value.Len v))
        nextId := c.nextId + 1 } := by
  unfold addEntry
  rw [index_lookup_none h hk]
  simp only [wrap64_add_terms]
  rfl

theorem Get_hit [Value V] {c : Cache V σ} (h : Inv c) {e : Element V} (he : e ∈ c.ll) :
    Get c e.Value.key
      = (some e.Value.value,
          { c with ll := e :: c.ll.filter (fun x => !decide (x.Value.key = e.Value.key)) }) := by
  unfold Get
  rw [index_lookup_of_mem h he]
  simp only
  rw [MoveToFront_mem h.ids_nodup h.keys_nodup he, findElement_head]

theorem Get_miss [Value V] {c : Cache V σ} (h : Inv c) {k : String}
    (hk : k ∉ c.ll.map (fun e => e.Value.key)) : Get c k = (none, c) := by
  unfold Get
  rw [index_lookup_none h hk]

theorem RemoveOldest_nil [Value V] {c : Cache V σ} (hl : c.ll = []) :
    RemoveOldest c = { c with removeCalls := c.removeCalls + 1 } := by
  unfold RemoveOldest Back
  rw [hl]
  rfl

theorem RemoveOldest_snoc [Value V] {c : Cache V σ} (h : Inv c) {l : List (Element V)}
    {e : Element V} (hl : c.ll = l ++ [e]) :
    RemoveOldest c =
      { c with
        ll := l
        cache := GoMap.erase c.cache e.Value.key
        nbytes := wrap64 (c.nbytes - (len e.Value.key + Value.Len e.Value.value))
        removeCalls := c.removeCalls + 1
        env := match c.OnEvicted with
          | some f =>
            f e.Value.key e.Value.value
              { entries := l.map (fun e => (e.Value.key, e.Value.value))
                index := (GoMap.erase c.cache e.Value.key).map Prod.fst
                nbytes := wrap64 (c.nbytes - (len e.Value.key + Value.Len e.Value.value)) }
              c.env
          | none => c.env } := by
  have hf : Remove c.ll e.id = l := by
    unfold Remove
    rw [hl]
    exact filter_last (hl ▸ h.ids_nodup)
  unfold RemoveOldest Back observe
  rw [hl, List.getLast?_concat] at *
  simp only [wrap64_sub_terms]
  rw [← hl, hf]
  cases c.OnEvicted <;> rfl

end lru


/-! ## Preservation of the invariant -/

namespace lru

variable {V σ : Type}

theorem sumCost_cons [Value V] (e : Element V) (l : List (Element V)) :
    sumCost (e :: l) = (len e.Value.key + Value.Len e.Value.value) + sumCost l := by
  simp [sumCost]

theorem sumCost_append [Value V] (l₁ l₂ : List (Element V)) :
    sumCost (l₁ ++ l₂) = sumCost l₁ + sumCost l₂ := by
  simp [sumCost]

theorem sumCost_perm [Value V] {l₁ l₂ : List (Element V)} (h : List.Perm l₁ l₂) :
    sumCost l₁ = sumCost l₂ := by
  unfold sumCost
  exact (h.map _).sum_eq

theorem Inv_New [Value V] (maxBytes : Int) (onEvicted : Option (Callback V σ))
    (env : σ) : Inv (New maxBytes onEvicted env) := by
  constructor <;> simp [New, GoMap.lookup, sumCost, wrap64_zero]

theorem Inv_of_perm [Value V] {c : Cache V σ} (h : Inv c) {l : List (Element V)} {n : Int}
    (hp : List.Perm (l.map (fun e => (e.id, e.Value.key)))
      (c.ll.map (fun e => (e.id, e.Value.key))))
    (hn : n = wrap64 (sumCost l)) : Inv { c with ll := l, nbytes := n } := by
  have hmem : ∀ i k, (∃ e ∈ l, e.id = i ∧ e.Value.key = k)
      ↔ (∃ e ∈ c.ll, e.id = i ∧ e.Value.key = k) := by
    intro i k
    have := hp.mem_iff (a := (i, k))
    simpa [List.mem_map, Prod.ext_iff] using this
  have hid : List.Perm (l.map (fun e => e.id)) (c.ll.map (fun e => e.id)) := by
    have := hp.map Prod.fst
    simpa [List.map_map, Function.comp_def] using this
  have hkey : List.Perm (l.map (fun e => e.Value.key)) (c.ll.map (fun e => e.Value.key)) := by
    have := hp.map Prod.snd
    simpa [List.map_map, Function.comp_def] using this
  refine ⟨hid.nodup_iff.mpr h.ids_nodup, hkey.nodup_iff.mpr h.keys_nodup, ?_, ?_,
    h.index_nodup, hn⟩
  · intro k i
    exact (h.index k i).trans (hmem i k).symm
  · intro e he
    obtain ⟨e0, he0, hi0, _⟩ := (hmem e.id e.Value.key).mp ⟨e, he, rfl, rfl⟩
    exact hi0 ▸ h.fresh e0 he0

theorem Inv_replace [Value V] {c : Cache V σ} (h : Inv c) {e : Element V} (he : e ∈ c.ll)
    (v : V) :
    Inv { c with
      ll := ⟨e.id, ⟨e.Value.key, v⟩⟩
              :: c.ll.filter (fun x => !decide (x.Value.key = e.Value.key))
      nbytes := wrap64 (c.nbytes + (Value.Len v - Value.Len e.Value.value)) } := by
  have hp := filter_ne_perm (fun x : Element V => x.Value.key) h.keys_nodup he
  apply Inv_of_perm h
  · have := hp.map (fun e : Element V => (e.id, e.Value.key))
    simpa using this
  · have h1 := sumCost_perm hp
    rw [sumCost_cons] at h1
    rw [sumCost_cons, h.nbytes_eq, ← h1, wrap64_wrap_add]
    simp only
    congr 1
    ring

theorem Inv_addEntry [Value V] {c : Cache V σ} (h : Inv c) (k : String) (v : V) :
    Inv (addEntry c k v) := by
  by_cases hk : k ∈ c.ll.map (fun e => e.Value.key)
  · obtain ⟨e, he, rfl⟩ := List.mem_map.mp hk
    rw [addEntry_hit h he]
    exact Inv_replace h he v
  · rw [addEntry_miss h hk]
    have hfresh : c.nextId ∉ c.ll.map (fun e => e.id) := by
      intro hm
      obtain ⟨e, he, hei⟩ := List.mem_map.mp hm
      have := h.fresh e he
      have hei' : e.id = c.nextId := hei
      omega
    refine ⟨?_, ?_, ?_, ?_, ?_, ?_⟩
    · simpa using ⟨by simpa using hfresh, h.ids_nodup⟩
    · simpa using ⟨by simpa using hk, h.keys_nodup⟩
    · intro k' i
      simp only [GoMap.lookup_insert, List.mem_cons, exists_eq_or_imp]
      by_cases hkk : k = k'
      · subst hkk
        simp only [if_true, Option.some.injEq, and_true]
        constructor
        · intro hi
          exact Or.inl hi
        · rintro (hi | ⟨e, he, _, hek⟩)
          · exact hi
          · exact absurd (hek ▸ List.mem_map_of_mem (fun e => e.Value.key) he) hk
      · simp only [hkk, if_false, and_false, false_or]
        exact h.index k' i
    · intro e he
      rcases List.mem_cons.mp he with rfl | he
      · simp
      · have := h.fresh e he
        show e.id < c.nextId + 1
        omega
    · exact GoMap.keys_insert_nodup _ _ _ h.index_nodup
    · show wrap64 (c.nbytes + (len k + Value.Len v))
        = wrap64 (sumCost ((⟨c.nextId, ⟨k, v⟩⟩ : Element V) :: c.ll))
      rw [sumCost_cons, h.nbytes_eq, wrap64_wrap_add]
      congr 1
      ring

theorem Inv_Get [Value V] {c : Cache V σ} (h : Inv c) (k : String) : Inv (Get c k).2 := by
  by_cases hk : k ∈ c.ll.map (fun e => e.Value.key)
  · obtain ⟨e, he, rfl⟩ := List.mem_map.mp hk
    rw [Get_hit h he]
    have hp := filter_ne_perm (fun x : Element V => x.Value.key) h.keys_nodup he
    exact Inv_of_perm h (hp.map (fun e : Element V => (e.id, e.Value.key)))
      (by rw [h.nbytes_eq, sumCost_perm hp])
  · rw [Get_miss h hk]
    exact h

theorem Inv_RemoveOldest [Value V] {c : Cache V σ} (h : Inv c) : Inv (RemoveOldest c) := by
  rcases List.eq_nil_or_concat c.ll with hl | ⟨l, e, hl⟩
  · rw [RemoveOldest_nil hl]
    exact ⟨h.ids_nodup, h.keys_nodup, h.index, h.fresh, h.index_nodup, h.nbytes_eq⟩
  · rw [List.concat_eq_append] at hl
    rw [RemoveOldest_snoc h hl]
    have hids := h.ids_nodup
    have hkeys := h.keys_nodup
    have hidx := h.index
    have hfr := h.fresh
    have hnb := h.nbytes_eq
    rw [hl] at hids hkeys hidx hfr hnb
    rw [List.map_append, List.nodup_append] at hids hkeys
    refine ⟨hids.1, hkeys.1, ?_, ?_, ?_, ?_⟩
    · intro k i
      simp only [GoMap.lookup_erase]
      by_cases hek : e.Value.key = k
      · simp only [hek, if_true]
        constructor
        · intro hc
          cases hc
        · rintro ⟨x, hx, _, hxk⟩
          have h1 : k ∈ l.map (fun e => e.Value.key) :=
            hxk ▸ List.mem_map_of_mem (fun e => e.Value.key) hx
          exact absurd (by simp [hek]) (hkeys.2.2 h1)
      · simp only [hek, if_false]
        rw [hidx k i]
        constructor
        · rintro ⟨x, hx, hxi, hxk⟩
          rcases List.mem_append.mp hx with hx | hx
          · exact ⟨x, hx, hxi, hxk⟩
          · simp only [List.mem_singleton] at hx
            subst hx
            exact absurd hxk hek
        · rintro ⟨x, hx, hxi, hxk⟩
          exact ⟨x, List.mem_append_left _ hx, hxi, hxk⟩
    · intro x hx
      exact hfr x (List.mem_append_left _ hx)
    · exact GoMap.keys_erase_nodup _ _ h.index_nodup
    · have h0 : sumCost ([] : List (Element V)) = 0 := rfl
      show wrap64 (c.nbytes - (len e.Value.key + Value.Len e.Value.value)) = wrap64 (sumCost l)
      rw [hnb, sumCost_append, sumCost_cons, h0, wrap64_wrap_sub]
      congr 1
      ring

end lru


/-! ## The eviction loop -/

namespace lru

variable {V σ : Type}

theorem RemoveOldest_maxBytes [Value V] (c : Cache V σ) :
    (RemoveOldest c).maxBytes = c.maxBytes := by
  unfold RemoveOldest
  cases Back c.ll with
  | none => rfl
  | some e => cases hc : c.OnEvicted <;> simp [hc]

theorem addEntry_maxBytes [Value V] (c : Cache V σ) (k : String) (v : V) :
    (addEntry c k v).maxBytes = c.maxBytes := by
  unfold addEntry
  cases GoMap.lookup c.cache k with
  | none => rfl
  | some i =>
    simp only
    cases findElement (MoveToFront c.ll i) i <;> rfl

theorem Get_maxBytes (c : Cache V σ) (k : String) : (Get c k).2.maxBytes = c.maxBytes := by
  unfold Get
  cases GoMap.lookup c.cache k with
  | none => rfl
  | some i =>
    simp only
    cases findElement (MoveToFront c.ll i) i <;> rfl

theorem evictLoop_zero_or_fits [Value V] {c : Cache V σ}
    (h : ¬ (c.maxBytes ≠ 0 ∧ c.maxBytes < c.nbytes)) (fuel : Nat) :
    evictLoop fuel c = some c := by
  cases fuel <;> simp only [evictLoop, h, if_false]

theorem evictLoop_step [Value V] {c : Cache V σ}
    (h : c.maxBytes ≠ 0 ∧ c.maxBytes < c.nbytes) (fuel : Nat) :
    evictLoop (fuel + 1) c = evictLoop fuel (RemoveOldest c) := by
  rw [evictLoop, if_pos h]

theorem evictLoop_out_of_fuel [Value V] {c : Cache V σ}
    (h : c.maxBytes ≠ 0 ∧ c.maxBytes < c.nbytes) : evictLoop 0 c = none := by
  rw [evictLoop, if_pos h]

theorem evictLoop_maxBytes [Value V] (fuel : Nat) {c c' : Cache V σ}
    (h : evictLoop fuel c = some c') : c'.maxBytes = c.maxBytes := by
  induction fuel generalizing c with
  | zero =>
    by_cases hc : c.maxBytes ≠ 0 ∧ c.maxBytes < c.nbytes
    · rw [evictLoop_out_of_fuel hc] at h
      cases h
    · rw [evictLoop_zero_or_fits hc] at h
      cases h
      rfl
  | succ n ih =>
    by_cases hc : c.maxBytes ≠ 0 ∧ c.maxBytes < c.nbytes
    · rw [evictLoop_step hc] at h
      rw [ih h, RemoveOldest_maxBytes]
    · rw [evictLoop_zero_or_fits hc] at h
      cases h
      rfl

theorem evictLoop_exit [Value V] (fuel : Nat) {c c' : Cache V σ}
    (h : evictLoop fuel c = some c') : ¬ (c'.maxBytes ≠ 0 ∧ c'.maxBytes < c'.nbytes) := by
  induction fuel generalizing c with
  | zero =>
    by_cases hc : c.maxBytes ≠ 0 ∧ c.maxBytes < c.nbytes
    · rw [evictLoop_out_of_fuel hc] at h
      cases h
    · rw [evictLoop_zero_or_fits hc] at h
      cases h
      exact hc
  | succ n ih =>
    by_cases hc : c.maxBytes ≠ 0 ∧ c.maxBytes < c.nbytes
    · rw [evictLoop_step hc] at h
      exact ih h
    · rw [evictLoop_zero_or_fits hc] at h
      cases h
      exact hc

theorem Inv_evictLoop [Value V] (fuel : Nat) {c c' : Cache V σ} (hi : Inv c)
    (h : evictLoop fuel c = some c') : Inv c' := by
  induction fuel generalizing c with
  | zero =>
    by_cases hc : c.maxBytes ≠ 0 ∧ c.maxBytes < c.nbytes
    · rw [evictLoop_out_of_fuel hc] at h
      cases h
    · rw [evictLoop_zero_or_fits hc] at h
      cases h
      exact hi
  | succ n ih =>
    by_cases hc : c.maxBytes ≠ 0 ∧ c.maxBytes < c.nbytes
    · rw [evictLoop_step hc] at h
      exact ih (Inv_RemoveOldest hi) h
    · rw [evictLoop_zero_or_fits hc] at h
      cases h
      exact hi

theorem RemoveOldest_length [Value V] {c : Cache V σ} (hi : Inv c) :
    (RemoveOldest c).ll.length = c.ll.length - 1 := by
  rcases List.eq_nil_or_concat c.ll with hl | ⟨l, e, hl⟩
  · rw [RemoveOldest_nil hl]
    simp [hl]
  · rw [List.concat_eq_append] at hl
    rw [RemoveOldest_snoc hi hl]
    simp [hl]

theorem evictLoop_terminates [Value V] (fuel : Nat) {c : Cache V σ} (hi : Inv c)
    (hmax : 0 ≤ c.maxBytes) (hf : c.ll.length ≤ fuel) : ∃ c', evictLoop fuel c = some c' := by
  induction fuel generalizing c with
  | zero =>
    have hl : c.ll = [] := List.length_eq_zero.mp (Nat.le_zero.mp hf)
    have hn : c.nbytes = 0 := by rw [hi.nbytes_eq, hl]; rfl
    have hc : ¬ (c.maxBytes ≠ 0 ∧ c.maxBytes < c.nbytes) := by
      rintro ⟨_, h2⟩
      omega
    exact ⟨c, evictLoop_zero_or_fits hc 0⟩
  | succ n ih =>
    by_cases hc : c.maxBytes ≠ 0 ∧ c.maxBytes < c.nbytes
    · rw [evictLoop_step hc]
      apply ih (Inv_RemoveOldest hi)
      · rw [RemoveOldest_maxBytes]
        exact hmax
      · rw [RemoveOldest_length hi]
        omega
    · exact ⟨c, evictLoop_zero_or_fits hc _⟩

theorem Reachable_Inv [Value V] {maxBytes : Int} {onEvicted : Option (Callback V σ)}
    {env : σ} {c : Cache V σ} (h : Reachable maxBytes onEvicted env c) :
    Inv c ∧ c.maxBytes = maxBytes := by
  induction h with
  | new => exact ⟨Inv_New _ _ _, rfl⟩
  | add fuel key value _ hadd ih =>
    unfold Add at hadd
    refine ⟨Inv_evictLoop fuel (Inv_addEntry ih.1 key value) hadd, ?_⟩
    rw [evictLoop_maxBytes fuel hadd, addEntry_maxBytes, ih.2]
  | get key _ ih => exact ⟨Inv_Get ih.1 key, by rw [Get_maxBytes, ih.2]⟩
  | removeOldest _ ih => exact ⟨Inv_RemoveOldest ih.1, by rw [RemoveOldest_maxBytes, ih.2]⟩

theorem addEntry_length_le [Value V] {c : Cache V σ} (hi : Inv c) (k : String) (v : V) :
    (addEntry c k v).ll.length ≤ c.ll.length + 1 := by
  by_cases hk : k ∈ c.ll.map (fun e => e.Value.key)
  · obtain ⟨e, he, rfl⟩ := List.mem_map.mp hk
    rw [addEntry_hit hi he]
    have := (filter_ne_perm (fun x : Element V => x.Value.key) hi.keys_nodup he).length_eq
    simp only [List.length_cons] at this ⊢
    omega
  · rw [addEntry_miss hi hk]
    simp

/-- C1 (eviction bound). On a store built by `New maxBytes cb` with `maxBytes ≠ 0` and
brought to any state by calls of `Add`, `Get` and `RemoveOldest`, every call of `Add`
that returns leaves `nbytes ≤ maxBytes`; and when `maxBytes` is positive the call does
return, after at most `Len() + 1` evictions. -/
theorem Add_eviction_bound [Value V] (maxBytes : Int)
    (onEvicted : Option (Callback V σ)) (env : σ) (hmax : maxBytes ≠ 0)
    {c : Cache V σ} (hc : Reachable maxBytes onEvicted env c) (key : String) (value : V) :
    (∀ fuel c', Add fuel c key value = some c' → c'.nbytes ≤ maxBytes) ∧
    (0 < maxBytes → ∃ c', Add (Len c + 1) c key value = some c' ∧ c'.nbytes ≤ maxBytes) := by
  obtain ⟨hi, hm⟩ := Reachable_Inv hc
  have bound : ∀ fuel c', Add fuel c key value = some c' → c'.nbytes ≤ maxBytes := by
    intro fuel c' h
    unfold Add at h
    have hex := evictLoop_exit fuel h
    have hmb : c'.maxBytes = maxBytes := by
      rw [evictLoop_maxBytes fuel h, addEntry_maxBytes, hm]
    rw [hmb] at hex
    by_contra hlt
    exact hex ⟨hmax, by omega⟩
  refine ⟨bound, fun hpos => ?_⟩
  have hi' := Inv_addEntry hi key value
  obtain ⟨c', hc'⟩ := evictLoop_terminates (Len c + 1) hi'
    (by rw [addEntry_maxBytes, hm]; omega) (addEntry_length_le hi key value)
  exact ⟨c', hc', bound _ _ hc'⟩

/-- Witness of C1: a store of capacity 4 that holds `a` and `b` evicts on `Add("c","3")`
and ends within its bound. -/
theorem Add_eviction_bound_witness :
    (4 : Int) ≠ 0 ∧
    ∃ c', Add 3 (addEntry (Get (addEntry (New 4 none () : Cache String Unit) "a" "1") "b").2
        "b" "2") "c" "3" = some c' ∧ c'.nbytes ≤ 4 :=
  ⟨by decide,
   (Add_eviction_bound 4 none () (by decide)
      (Reachable.add 0 "b" "2"
        (Reachable.get "b" (Reachable.add 0 "a" "1" Reachable.new rfl)) rfl)
      "c" "3").2 (by decide)⟩

end lru


/-! ## The operations seen on the sequence of entries -/

namespace lru

variable {V σ : Type}

theorem keys_entries (c : Cache V σ) :
    (entries c).map Prod.fst = c.ll.map (fun e => e.Value.key) := by
  simp [entries, List.map_map, Function.comp_def]

theorem mem_entries {c : Cache V σ} {k : String} {v : V} (h : (k, v) ∈ entries c) :
    ∃ e ∈ c.ll, e.Value.key = k ∧ e.Value.value = v := by
  unfold entries at h
  obtain ⟨e, he, hp⟩ := List.mem_map.mp h
  simp only [Prod.mk.injEq] at hp
  exact ⟨e, he, hp.1, hp.2⟩

theorem entries_filter (l : List (Element V)) (k : String) :
    (l.filter (fun x => !decide (x.Value.key = k))).map (fun e => (e.Value.key, e.Value.value))
      = (l.map (fun e => (e.Value.key, e.Value.value))).filter (fun p => !decide (p.1 = k)) := by
  rw [List.filter_map]
  rfl

theorem entries_addEntry_miss [Value V] {c : Cache V σ} (hi : Inv c) {k : String}
    (hk : k ∉ (entries c).map Prod.fst) (v : V) :
    entries (addEntry c k v) = (k, v) :: entries c
      ∧ (addEntry c k v).nbytes = wrap64 (c.nbytes + (len k + Value.Len v)) := by
  rw [keys_entries] at hk
  rw [addEntry_miss hi hk]
  exact ⟨rfl, rfl⟩

theorem entries_addEntry_hit [Value V] {c : Cache V σ} (hi : Inv c) {k : String} {old : V}
    (hk : (k, old) ∈ entries c) (v : V) :
    entries (addEntry c k v) = (k, v) :: (entries c).filter (fun p => !decide (p.1 = k))
      ∧ (addEntry c k v).nbytes = wrap64 (c.nbytes + (Value.Len v - Value.Len old)) := by
  obtain ⟨e, he, rfl, rfl⟩ := mem_entries hk
  rw [addEntry_hit hi he]
  refine ⟨?_, rfl⟩
  simp only [entries, List.map_cons]
  rw [entries_filter]

theorem entries_Get_hit [Value V] {c : Cache V σ} (hi : Inv c) {k : String} {v : V}
    (hk : (k, v) ∈ entries c) :
    (Get c k).1 = some v
      ∧ entries (Get c k).2 = (k, v) :: (entries c).filter (fun p => !decide (p.1 = k))
      ∧ (Get c k).2.nbytes = c.nbytes := by
  obtain ⟨e, he, rfl, rfl⟩ := mem_entries hk
  rw [Get_hit hi he]
  refine ⟨rfl, ?_, rfl⟩
  simp only [entries, List.map_cons]
  rw [entries_filter]

theorem entries_Get_miss [Value V] {c : Cache V σ} (hi : Inv c) {k : String}
    (hk : k ∉ (entries c).map Prod.fst) : Get c k = (none, c) := by
  rw [keys_entries] at hk
  exact Get_miss hi hk

theorem entries_RemoveOldest_snoc [Value V] {c : Cache V σ} (hi : Inv c)
    {l : List (String × V)} {p : String × V} (hl : entries c = l ++ [p]) :
    entries (RemoveOldest c) = l
      ∧ (RemoveOldest c).nbytes = wrap64 (c.nbytes - (len p.1 + Value.Len p.2)) := by
  rcases List.eq_nil_or_concat c.ll with hn | ⟨l0, e, hn⟩
  · simp [entries, hn] at hl
  · rw [List.concat_eq_append] at hn
    rw [RemoveOldest_snoc hi hn]
    unfold entries at hl ⊢
    rw [hn, List.map_append, List.map_singleton] at hl
    obtain ⟨h1, h2⟩ := List.append_inj' hl (by simp)
    simp only [List.cons.injEq, and_true] at h2
    subst h2
    exact ⟨h1, rfl⟩

theorem Add_fits [Value V] {c : Cache V σ} {k : String} {v : V}
    (h : (addEntry c k v).nbytes ≤ (addEntry c k v).maxBytes) (fuel : Nat) :
    Add fuel c k v = some (addEntry c k v) := by
  unfold Add
  apply evictLoop_zero_or_fits
  rintro ⟨_, h2⟩
  omega

end lru


/-! ## Recency order -/

namespace lru

variable {V σ : Type}

theorem Len_eq_entries_length (c : Cache V σ) : Len c = (entries c).length := by
  simp [Len, entries]

theorem Add_miss_fits [Value V] {c : Cache V σ} (hi : Inv c) {k : String}
    (hk : k ∉ (entries c).map Prod.fst) (v : V)
    (hfit : wrap64 (c.nbytes + (len k + Value.Len v)) ≤ c.maxBytes) (fuel : Nat) :
    ∃ c', Add fuel c k v = some c' ∧ Inv c' ∧ entries c' = (k, v) :: entries c
      ∧ c'.nbytes = wrap64 (c.nbytes + (len k + Value.Len v))
      ∧ c'.maxBytes = c.maxBytes := by
  obtain ⟨e1, n1⟩ := entries_addEntry_miss hi hk v
  have m1 := addEntry_maxBytes c k v
  exact ⟨addEntry c k v, Add_fits (by rw [n1, m1]; exact hfit) fuel, Inv_addEntry hi k v,
    e1, n1, m1⟩

theorem Get_hit_spec [Value V] {c : Cache V σ} (hi : Inv c) {k : String} {v : V}
    (hk : (k, v) ∈ entries c) :
    ∃ c', Get c k = (some v, c') ∧ Inv c'
      ∧ entries c' = (k, v) :: (entries c).filter (fun p => !decide (p.1 = k))
      ∧ c'.nbytes = c.nbytes ∧ c'.maxBytes = c.maxBytes := by
  obtain ⟨g1, g2, g3⟩ := entries_Get_hit hi hk
  exact ⟨(Get c k).2, Prod.ext g1 rfl, Inv_Get hi k, g2, g3, Get_maxBytes c k⟩

theorem Add_miss_evict_one [Value V] {c : Cache V σ} (hi : Inv c) {k : String}
    (hk : k ∉ (entries c).map Prod.fst) (v : V) (hne : c.maxBytes ≠ 0)
    (hover : c.maxBytes < wrap64 (c.nbytes + (len k + Value.Len v)))
    {l : List (String × V)} {p : String × V} (hl : entries c = l ++ [p])
    (hfit : wrap64 (wrap64 (c.nbytes + (len k + Value.Len v)) - (len p.1 + Value.Len p.2))
      ≤ c.maxBytes)
    (fuel : Nat) :
    ∃ c', Add (fuel + 1) c k v = some c' ∧ Inv c' ∧ entries c' = (k, v) :: l
      ∧ c'.maxBytes = c.maxBytes := by
  obtain ⟨e1, n1⟩ := entries_addEntry_miss hi hk v
  have m1 := addEntry_maxBytes c k v
  have i1 := Inv_addEntry hi k v
  obtain ⟨e2, n2⟩ := entries_RemoveOldest_snoc i1 (l := (k, v) :: l) (p := p)
    (by rw [e1, hl]; rfl)
  have m2 := RemoveOldest_maxBytes (addEntry c k v)
  refine ⟨RemoveOldest (addEntry c k v), ?_, Inv_RemoveOldest i1, e2, by rw [m2, m1]⟩
  unfold Add
  rw [evictLoop_step ⟨by rw [m1]; exact hne, by rw [m1, n1]; exact hover⟩]
  apply evictLoop_zero_or_fits
  rintro ⟨_, hlt⟩
  rw [m2, m1, n2, n1] at hlt
  omega

/-- C2 (LRU order), for costs that do not overflow the `int64` byte counter. With three
distinct keys whose entries cost `cst ≥ 1` bytes each, a capacity of two but not three
entries, and `3 * cst ≤ MaxInt64`, the calls `Add(A)`, `Add(B)`, `Get(A)`, `Add(C)` on a
fresh store evict `B`: afterwards the store holds `C` and `A` (most recent first),
`Get(B)` misses, `Get(A)` and `Get(C)` hit and `Len()` is 2. -/
theorem lru_order [Value V] (maxBytes : Int) (onEvicted : Option (Callback V σ))
    (env : σ) (A B C : String) (vA vB vC : V) (cst : Int)
    (hAB : A ≠ B) (hAC : A ≠ C) (hBC : B ≠ C)
    (hA : len A + Value.Len vA = cst) (hB : len B + Value.Len vB = cst)
    (hC : len C + Value.Len vC = cst)
    (hcst : 1 ≤ cst) (h2 : 2 * cst ≤ maxBytes) (h3 : maxBytes < 3 * cst)
    (h64 : 3 * cst ≤ MaxInt64)
    (f1 f2 f3 : Nat) (hf3 : 1 ≤ f3) :
    ∃ c1 c2 c4 : Cache V σ,
      Add f1 (New maxBytes onEvicted env) A vA = some c1 ∧
      Add f2 c1 B vB = some c2 ∧
      (Get c2 A).1 = some vA ∧
      Add f3 (Get c2 A).2 C vC = some c4 ∧
      entries c4 = [(C, vC), (A, vA)] ∧
      (Get c4 B).1 = none ∧ (Get c4 A).1 = some vA ∧ (Get c4 C).1 = some vC ∧
      Len c4 = 2 := by
  unfold MaxInt64 at h64
  have w1 : wrap64 (0 + cst) = cst := by unfold wrap64; omega
  have w2 : wrap64 (cst + cst) = 2 * cst := by unfold wrap64; omega
  have w3 : wrap64 (2 * cst + cst) = 3 * cst := by unfold wrap64; omega
  have w4 : wrap64 (3 * cst - cst) = 2 * cst := by unfold wrap64; omega
  have i0 : Inv (New maxBytes onEvicted env : Cache V σ) := Inv_New _ _ _
  have e0 : entries (New maxBytes onEvicted env : Cache V σ) = [] := rfl
  have hm0 : (New maxBytes onEvicted env : Cache V σ).maxBytes = maxBytes := rfl
  have hn0 : (New maxBytes onEvicted env : Cache V σ).nbytes = 0 := rfl
  obtain ⟨c1, s1, i1, e1, n1, m1⟩ := Add_miss_fits i0 (k := A) (by rw [e0]; simp) vA
    (by rw [hn0, hm0, hA, w1]; omega) f1
  rw [e0] at e1
  rw [hn0, hA, w1] at n1
  rw [hm0] at m1
  obtain ⟨c2, s2, i2, e2, n2, m2⟩ := Add_miss_fits i1 (k := B)
    (by rw [e1]; simpa using Ne.symm hAB) vB (by rw [n1, m1, hB, w2]; exact h2) f2
  rw [e1] at e2
  rw [n1, hB, w2] at n2
  obtain ⟨g, sg, ig, eg, ng, mg⟩ := Get_hit_spec i2 (k := A) (v := vA) (by rw [e2]; simp)
  have eg' : entries g = [(A, vA), (B, vB)] := by
    rw [eg, e2]
    simp [List.filter_cons, Ne.symm hAB]
  obtain ⟨n, rfl⟩ : ∃ n, f3 = n + 1 := ⟨f3 - 1, by omega⟩
  obtain ⟨c4, s4, i4, e4, m4⟩ := Add_miss_evict_one ig (k := C)
    (by rw [eg']; simp [Ne.symm hAC, Ne.symm hBC]) vC (by rw [mg, m2, m1]; omega)
    (by rw [mg, m2, m1, ng, n2, hC, w3]; exact h3) (l := [(A, vA)]) (p := (B, vB))
    (by rw [eg']; rfl) (by rw [mg, m2, m1, ng, n2, hC, w3, hB, w4]; exact h2) n
  refine ⟨c1, c2, c4, s1, s2, by rw [sg], by rw [sg]; exact s4, e4, ?_, ?_, ?_, ?_⟩
  · rw [entries_Get_miss i4 (by rw [e4]; simp [hBC, Ne.symm hAB])]
  · exact (entries_Get_hit i4 (k := A) (v := vA) (by rw [e4]; simp)).1
  · exact (entries_Get_hit i4 (k := C) (v := vC) (by rw [e4]; simp)).1
  · rw [Len_eq_entries_length, e4]
    rfl

/-- Witness of C2: keys `a`, `b`, `c` with one-byte values (cost 2 each) in a store of
capacity 5. -/
theorem lru_order_witness :
    ∃ c1 c2 c4 : Cache String Unit,
      Add 1 (New 5 none ()) "a" "1" = some c1 ∧
      Add 1 c1 "b" "2" = some c2 ∧
      (Get c2 "a").1 = some "1" ∧
      Add 1 (Get c2 "a").2 "c" "3" = some c4 ∧
      entries c4 = [("c", "3"), ("a", "1")] ∧
      (Get c4 "b").1 = none ∧ (Get c4 "a").1 = some "1" ∧ (Get c4 "c").1 = some "3" ∧
      Len c4 = 2 :=
  lru_order 5 none () "a" "b" "c" "1" "2" "3" 2 (by decide) (by decide) (by decide)
    (by decide) (by decide) (by decide) (by decide) (by decide) (by decide) (by decide)
    1 1 1 (by decide)

/-- Counterexample to C2 as stated: three entries of cost `2^62 - 1` each and
`maxBytes = 2^63 - 2`, twice that cost. The third `Add` takes the `int64` counter `nbytes`
past `MaxInt64`, it wraps to a negative number, nothing is evicted: the store ends with
three entries and `Get("b")` hits. -/
theorem lru_order_counterexample :
    len "a" + Value.Len (4611686018427387902 : Int) = 4611686018427387903 ∧
    2 * (4611686018427387903 : Int) ≤ 9223372036854775806 ∧
    (9223372036854775806 : Int) < 3 * 4611686018427387903 ∧
    ∃ c1 c2 c4 : Cache Int Unit,
      Add 1 (New 9223372036854775806 none ()) "a" 4611686018427387902 = some c1 ∧
      Add 1 c1 "b" 4611686018427387902 = some c2 ∧
      Add 1 (Get c2 "a").2 "c" 4611686018427387902 = some c4 ∧
      c4.nbytes = -4611686018427387907 ∧
      Len c4 = 3 ∧ (Get c4 "b").1 = some 4611686018427387902 :=
  ⟨by decide, by decide, by decide, _, _, _, rfl, rfl, rfl, by decide, by decide, by decide⟩

end lru


/-! ## Oldest-first eviction -/

namespace lru

variable {V σ : Type}

theorem longestFittingSuffix_spec [Value V] (maxBytes : Int) (hmax : 0 ≤ maxBytes)
    (seq : List (String × V)) :
    IsLongestFittingSuffix maxBytes seq (longestFittingSuffix maxBytes seq) := by
  induction seq with
  | nil =>
    refine ⟨List.suffix_refl _, by simpa [longestFittingSuffix, totalCost] using hmax, ?_⟩
    intro T hT _
    rw [List.suffix_nil.mp hT]
    exact Nat.zero_le _
  | cons p rest ih =>
    by_cases hfit : totalCost (p :: rest) ≤ maxBytes
    · have e : longestFittingSuffix maxBytes (p :: rest) = p :: rest := by
        rw [longestFittingSuffix, if_pos hfit]
      rw [e]
      exact ⟨List.suffix_refl _, hfit, fun T hT _ => hT.length_le⟩
    · have e : longestFittingSuffix maxBytes (p :: rest) = longestFittingSuffix maxBytes rest := by
        rw [longestFittingSuffix, if_neg hfit]
      rw [e]
      refine ⟨ih.suffix.trans (List.suffix_cons p rest), ih.fits, ?_⟩
      intro T hT hTfit
      rcases List.suffix_cons_iff.mp hT with h | h
      · subst h
        exact absurd hTfit hfit
      · exact ih.longest T h hTfit

theorem totalCost_append [Value V] (l₁ l₂ : List (String × V)) :
    totalCost (l₁ ++ l₂) = totalCost l₁ + totalCost l₂ := by
  simp [totalCost]

theorem totalCost_cons [Value V] (p : String × V) (l : List (String × V)) :
    totalCost (p :: l) = (len p.1 + Value.Len p.2) + totalCost l := by
  simp [totalCost]

theorem len_nonneg (k : String) : 0 ≤ len k := by
  unfold len
  exact Int.natCast_nonneg _

theorem sumCost_eq_totalCost [Value V] (c : Cache V σ) :
    sumCost c.ll = totalCost (entries c) := by
  simp [sumCost, totalCost, entries, List.map_map, Function.comp_def]

theorem nbytes_eq_totalCost [Value V] {c : Cache V σ} (hi : Inv c) {T : List (String × V)}
    (hT : entries c = T.reverse) : c.nbytes = wrap64 (totalCost T) := by
  rw [hi.nbytes_eq, sumCost_eq_totalCost, hT]
  unfold totalCost
  rw [List.map_reverse, List.sum_reverse]

theorem totalCost_nonneg [Value V] (l : List (String × V))
    (hnn : ∀ p ∈ l, 0 ≤ Value.Len p.2) : 0 ≤ totalCost l := by
  induction l with
  | nil => exact le_refl _
  | cons p l ih =>
    rw [totalCost_cons]
    have h1 := len_nonneg p.1
    have h2 := hnn p (List.mem_cons_self _ _)
    have h3 := ih (fun q hq => hnn q (List.mem_cons_of_mem _ hq))
    omega

theorem totalCost_suffix_le [Value V] {S L : List (String × V)} (h : S <:+ L)
    (hnn : ∀ p ∈ L, 0 ≤ Value.Len p.2) : totalCost S ≤ totalCost L := by
  obtain ⟨t, rfl⟩ := h
  rw [totalCost_append]
  have := totalCost_nonneg t (fun q hq => hnn q (List.mem_append_left _ hq))
  omega

theorem nbytes_exact [Value V] {c : Cache V σ} (hi : Inv c) {T : List (String × V)}
    (hT : entries c = T.reverse) (hnn : ∀ p ∈ T, 0 ≤ Value.Len p.2)
    (hsum : totalCost T ≤ MaxInt64) : c.nbytes = totalCost T := by
  rw [nbytes_eq_totalCost hi hT]
  exact wrap64_inRange (le_trans (by decide) (totalCost_nonneg T hnn)) hsum

theorem evictLoop_spec [Value V] (T : List (String × V)) :
    ∀ (fuel : Nat) (c : Cache V σ), Inv c → 0 < c.maxBytes → entries c = T.reverse →
      (∀ p ∈ T, 0 ≤ Value.Len p.2) → totalCost T ≤ MaxInt64 →
      T.length ≤ fuel →
      ∃ c', evictLoop fuel c = some c' ∧ Inv c' ∧ c'.maxBytes = c.maxBytes
        ∧ entries c' = (longestFittingSuffix c.maxBytes T).reverse := by
  induction T with
  | nil =>
    intro fuel c hi hmax hT hnn hsum _
    have hn := nbytes_exact hi hT hnn hsum
    refine ⟨c, evictLoop_zero_or_fits ?_ fuel, hi, rfl, hT⟩
    rintro ⟨_, hlt⟩
    rw [hn] at hlt
    simp [totalCost] at hlt
    omega
  | cons y T ih =>
    intro fuel c hi hmax hT hnn hsum hf
    have hn := nbytes_exact hi hT hnn hsum
    have hnn' : ∀ p ∈ T, 0 ≤ Value.Len p.2 := fun q hq => hnn q (List.mem_cons_of_mem _ hq)
    have hsum' : totalCost T ≤ MaxInt64 :=
      le_trans (totalCost_suffix_le (List.suffix_cons y T) hnn) hsum
    by_cases hfit : totalCost (y :: T) ≤ c.maxBytes
    · refine ⟨c, evictLoop_zero_or_fits ?_ fuel, hi, rfl, ?_⟩
      · rintro ⟨_, hlt⟩
        omega
      · rw [longestFittingSuffix, if_pos hfit]
        exact hT
    · obtain ⟨n, rfl⟩ : ∃ n, fuel = n + 1 := ⟨fuel - 1, by simp at hf; omega⟩
      rw [evictLoop_step ⟨by omega, by omega⟩]
      rw [List.reverse_cons] at hT
      obtain ⟨e1, _⟩ := entries_RemoveOldest_snoc hi hT
      obtain ⟨c', h1, h2, h3, h4⟩ := ih n (RemoveOldest c) (Inv_RemoveOldest hi)
        (by rw [RemoveOldest_maxBytes]; exact hmax) e1 hnn' hsum' (by simp at hf; omega)
      rw [RemoveOldest_maxBytes] at h3 h4
      refine ⟨c', h1, h2, h3, ?_⟩
      rw [longestFittingSuffix, if_neg hfit]
      exact h4

end lru


namespace lru

variable {V σ : Type}

end lru


/-! ## Overwriting a key -/

namespace lru

variable {V σ : Type}

theorem Get_fst_some_iff [Value V] {c : Cache V σ} (hi : Inv c) (k : String) (v : V) :
    (Get c k).1 = some v ↔ (k, v) ∈ entries c := by
  constructor
  · intro h
    by_cases hk : k ∈ c.ll.map (fun e => e.Value.key)
    · obtain ⟨e, he, rfl⟩ := List.mem_map.mp hk
      rw [Get_hit hi he] at h
      simp only [Option.some.injEq] at h
      subst h
      exact List.mem_map.mpr ⟨e, he, rfl⟩
    · rw [Get_miss hi hk] at h
      cases h
  · intro h
    exact (entries_Get_hit hi h).1

/-- C4 (overwrite), in `int64` arithmetic. On a reachable store that holds key `k` with
value `old`, the first statement of `Add(k, new)` (everything before the eviction loop)
makes `new` the value of `k`, sets `nbytes` to the `int64` sum
`nbytes + (new.Len() - old.Len())`, which is the exact sum whenever that sum lies between
`MinInt64` and `MaxInt64`, puts `k` at the most recently used position followed by all
other entries in their previous order, leaves the index untouched, and keeps the number of
entries. -/
theorem Add_overwrite [Value V] (maxBytes : Int) (onEvicted : Option (Callback V σ))
    (env : σ) {c : Cache V σ} (hc : Reachable maxBytes onEvicted env c)
    (k : String) (old new : V) (hold : (Get c k).1 = some old) :
    (Get (addEntry c k new) k).1 = some new ∧
    (addEntry c k new).nbytes = wrap64 (c.nbytes + (Value.Len new - Value.Len old)) ∧
    (MinInt64 ≤ c.nbytes + (Value.Len new - Value.Len old) →
      c.nbytes + (Value.Len new - Value.Len old) ≤ MaxInt64 →
      (addEntry c k new).nbytes = c.nbytes + (Value.Len new - Value.Len old)) ∧
    entries (addEntry c k new)
      = (k, new) :: (entries c).filter (fun p => !decide (p.1 = k)) ∧
    List.Perm ((k, old) :: (entries c).filter (fun p => !decide (p.1 = k))) (entries c) ∧
    (addEntry c k new).cache = c.cache ∧
    Len (addEntry c k new) = Len c := by
  obtain ⟨hi, _⟩ := Reachable_Inv hc
  have hmem := (Get_fst_some_iff hi k old).mp hold
  obtain ⟨e1, n1⟩ := entries_addEntry_hit hi hmem new
  have hnd : ((entries c).map Prod.fst).Nodup := by
    rw [keys_entries]
    exact hi.keys_nodup
  have hperm := filter_ne_perm (fun p : String × V => p.1) hnd hmem
  have hcache : (addEntry c k new).cache = c.cache := by
    obtain ⟨e, he, rfl, rfl⟩ := mem_entries hmem
    rw [addEntry_hit hi he]
  refine ⟨?_, n1, ?_, e1, hperm, hcache, ?_⟩
  · rw [Get_fst_some_iff (Inv_addEntry hi k new), e1]
    exact List.mem_cons_self _ _
  · intro h1 h2
    rw [n1]
    exact wrap64_inRange h1 h2
  · rw [Len_eq_entries_length, Len_eq_entries_length, e1, ← hperm.length_eq]
    rfl

/-- Witness of C4: overwriting `a` in the store that holds `b` and `a`. -/
theorem Add_overwrite_witness :
    (Get (addEntry (addEntry (addEntry (New 10 none () : Cache String Unit) "a" "1") "b" "2")
        "a" "333") "a").1 = some "333" ∧
    (addEntry (addEntry (addEntry (New 10 none () : Cache String Unit) "a" "1") "b" "2")
        "a" "333").nbytes = 4 + (3 - 1) :=
  have h := Add_overwrite 10 none ()
    (Reachable.add 0 "b" "2" (Reachable.add 0 "a" "1" Reachable.new rfl) rfl)
    "a" "1" "333" (by decide)
  ⟨h.1, h.2.2.1 (by decide) (by decide)⟩

/-- Counterexample to C4 as stated: on the unbounded store that holds `a` with a value of
`Len` 0, so that `nbytes` is 1, `Add` of `a` with a value of `Len` `MaxInt64` leaves
`nbytes` at `MinInt64`, not at `1 + (MaxInt64 - 0)`. -/
theorem Add_overwrite_counterexample :
    ∃ c : Cache Int Unit,
      Add 0 (New 0 none ()) "a" 0 = some c ∧
      (Get c "a").1 = some 0 ∧
      c.nbytes = 1 ∧
      (addEntry c "a" 9223372036854775807).nbytes = -9223372036854775808 ∧
      (addEntry c "a" 9223372036854775807).nbytes
        ≠ c.nbytes + (Value.Len (9223372036854775807 : Int) - Value.Len (0 : Int)) :=
  ⟨_, rfl, by decide, by decide, by decide, by decide⟩

end lru


/-! ## Binary search on the sorted ring -/

namespace consistenthash

theorem searchLoop_spec (f : Nat → Bool) (n : Nat)
    (hmono : ∀ a b, a ≤ b → b < n → f a = true → f b = true) :
    ∀ fuel i j, i ≤ j → j ≤ n → j - i ≤ fuel → (∀ k, k < i → f k = false) →
      (∀ k, j ≤ k → k < n → f k = true) →
      searchLoop f fuel i j ≤ n ∧ (∀ k, k < searchLoop f fuel i j → f k = false) ∧
        (∀ k, searchLoop f fuel i j ≤ k → k < n → f k = true) := by
  intro fuel
  induction fuel with
  | zero =>
    intro i j hij hjn hf hlo hhi
    have hij' : i = j := by omega
    subst hij'
    simp only [searchLoop]
    exact ⟨hjn, hlo, hhi⟩
  | succ fuel ih =>
    intro i j hij hjn hf hlo hhi
    rw [searchLoop]
    by_cases hlt : i < j
    · rw [if_pos hlt]
      have hh1 : i ≤ (i + j) / 2 := by omega
      have hh2 : (i + j) / 2 < j := by omega
      cases hfh : f ((i + j) / 2) with
      | false =>
        simp only [hfh, Bool.not_false, if_true]
        apply ih _ _ (by omega) hjn (by omega) _ hhi
        intro k hk
        cases hfk : f k with
        | false => rfl
        | true =>
          have := hmono k ((i + j) / 2) (by omega) (by omega) hfk
          rw [hfh] at this
          cases this
      | true =>
        simp only [hfh, Bool.not_true, Bool.false_eq_true, if_false]
        apply ih _ _ hh1 (by omega) (by omega) hlo
        intro k hk hkn
        exact hmono _ k hk hkn hfh
    · rw [if_neg hlt]
      have hij' : i = j := by omega
      subst hij'
      exact ⟨hjn, hlo, hhi⟩

theorem Search_spec (f : Nat → Bool) (n : Nat)
    (hmono : ∀ a b, a ≤ b → b < n → f a = true → f b = true) :
    Search n f ≤ n ∧ (∀ k, k < Search n f → f k = false) ∧
      (∀ k, Search n f ≤ k → k < n → f k = true) := by
  unfold Search
  exact searchLoop_spec f n hmono n 0 n (Nat.zero_le _) (le_refl _) (by omega)
    (fun k hk => absurd hk (Nat.not_lt_zero _)) (fun k hk hkn => absurd hkn (by omega))

theorem sorted_getD_le {l : List Int} (hs : l.Sorted (fun a b => a ≤ b)) {a b : Nat}
    (hab : a ≤ b) (hb : b < l.length) : l.getD a 0 ≤ l.getD b 0 := by
  have ha : a < l.length := by omega
  rw [List.getD_eq_getElem l 0 ha, List.getD_eq_getElem l 0 hb]
  exact hs.rel_get_of_le (a := ⟨a, ha⟩) (b := ⟨b, hb⟩) hab

theorem mem_iff_getD {l : List Int} {w : Int} :
    w ∈ l ↔ ∃ k, k < l.length ∧ l.getD k 0 = w := by
  rw [List.mem_iff_getElem]
  constructor
  · rintro ⟨k, hk, h⟩
    exact ⟨k, hk, by rw [List.getD_eq_getElem l 0 hk]; exact h⟩
  · rintro ⟨k, hk, h⟩
    exact ⟨k, hk, by rw [List.getD_eq_getElem l 0 hk] at h; exact h⟩

theorem Get_spec (m : Map) (hs : m.keys.Sorted (fun a b => a ≤ b)) (hne : m.keys ≠ [])
    (key : String) :
    ∃ v ∈ m.keys, Get m key = index m.hashMap v ∧
      ((hashInt m.hash key ≤ v ∧ ∀ w ∈ m.keys, hashInt m.hash key ≤ w → v ≤ w) ∨
       ((∀ w ∈ m.keys, w < hashInt m.hash key) ∧ ∀ w ∈ m.keys, v ≤ w)) := by
  have hn : 0 < m.keys.length := List.length_pos.mpr hne
  have hmono : ∀ a b, a ≤ b → b < m.keys.length →
      (fun i => decide (m.keys.getD i 0 ≥ hashInt m.hash key)) a = true →
      (fun i => decide (m.keys.getD i 0 ≥ hashInt m.hash key)) b = true := by
    intro a b hab hb ha
    simp only [ge_iff_le, decide_eq_true_eq] at ha ⊢
    exact le_trans ha (sorted_getD_le hs hab hb)
  obtain ⟨h1, h2, h3⟩ := Search_spec _ _ hmono
  have hget : Get m key = index m.hashMap (m.keys.getD
      (Search m.keys.length (fun i => decide (m.keys.getD i 0 ≥ hashInt m.hash key))
        % m.keys.length) 0) := by
    unfold Get
    rw [if_neg (by omega)]
  generalize Search m.keys.length (fun i => decide (m.keys.getD i 0 ≥ hashInt m.hash key)) = idx
    at h1 h2 h3 hget
  by_cases hidx : idx < m.keys.length
  · rw [Nat.mod_eq_of_lt hidx] at hget
    refine ⟨_, mem_iff_getD.mpr ⟨idx, hidx, rfl⟩, hget, Or.inl ⟨?_, ?_⟩⟩
    · simpa using h3 idx (le_refl _) hidx
    · intro w hw hle
      obtain ⟨k, hk, rfl⟩ := mem_iff_getD.mp hw
      have hki : idx ≤ k := by
        by_contra hc
        have := h2 k (by omega)
        simp only [ge_iff_le, decide_eq_false_iff_not] at this
        exact this hle
      exact sorted_getD_le hs hki hk
  · have hidx' : idx = m.keys.length := by omega
    rw [hidx', Nat.mod_self] at hget
    refine ⟨_, mem_iff_getD.mpr ⟨0, hn, rfl⟩, hget, Or.inr ⟨?_, ?_⟩⟩
    · intro w hw
      obtain ⟨k, hk, rfl⟩ := mem_iff_getD.mp hw
      have := h2 k (by omega)
      simp only [ge_iff_le, decide_eq_false_iff_not] at this
      omega
    · intro w hw
      obtain ⟨k, hk, rfl⟩ := mem_iff_getD.mp hw
      exact sorted_getD_le hs (Nat.zero_le _) hk

theorem smallest_eq_none {l : List Int} (h : smallest l = none) : l = [] := by
  cases l with
  | nil => rfl
  | cons x xs =>
    unfold smallest at h
    cases hs : smallest xs <;> simp [hs] at h

theorem smallest_some_spec {l : List Int} {v : Int} (h : smallest l = some v) :
    v ∈ l ∧ ∀ w ∈ l, v ≤ w := by
  induction l generalizing v with
  | nil => simp [smallest] at h
  | cons x xs ih =>
    unfold smallest at h
    cases hs : smallest xs with
    | none =>
      rw [hs] at h
      simp only [Option.some.injEq] at h
      subst h
      rw [smallest_eq_none hs]
      simp
    | some y =>
      rw [hs] at h
      simp only [Option.some.injEq] at h
      subst h
      obtain ⟨hy, hle⟩ := ih hs
      constructor
      · rcases min_choice x y with hm | hm
        · rw [hm]
          exact List.mem_cons_self _ _
        · rw [hm]
          exact List.mem_cons_of_mem _ hy
      · intro w hw
        rcases List.mem_cons.mp hw with rfl | hw
        · exact min_le_left _ _
        · exact le_trans (min_le_right _ _) (hle w hw)

theorem smallest_eq_some {l : List Int} {v : Int} (hv : v ∈ l) (hle : ∀ w ∈ l, v ≤ w) :
    smallest l = some v := by
  cases hs : smallest l with
  | none =>
    rw [smallest_eq_none hs] at hv
    simp at hv
  | some u =>
    obtain ⟨hu, hule⟩ := smallest_some_spec hs
    rw [le_antisymm (hule v hv) (hle u hu)]

theorem successor_spec {keys : List Int} {h v : Int} (hv : v ∈ keys)
    (hc : (h ≤ v ∧ ∀ w ∈ keys, h ≤ w → v ≤ w) ∨ ((∀ w ∈ keys, w < h) ∧ ∀ w ∈ keys, v ≤ w)) :
    successor keys h = some v := by
  unfold successor
  rcases hc with ⟨h1, h2⟩ | ⟨h1, h2⟩
  · have : smallest (keys.filter (fun v => decide (h ≤ v))) = some v := by
      apply smallest_eq_some
      · exact List.mem_filter.mpr ⟨hv, by simpa using h1⟩
      · intro w hw
        obtain ⟨hw1, hw2⟩ := List.mem_filter.mp hw
        exact h2 w hw1 (by simpa using hw2)
    rw [this]
  · have : keys.filter (fun v => decide (h ≤ v)) = [] := by
      rw [List.filter_eq_nil_iff]
      intro w hw
      have := h1 w hw
      simp only [decide_eq_true_eq]
      omega
    rw [this]
    simp only [smallest]
    exact smallest_eq_some hv h2

end consistenthash


/-! ## The ring after any sequence of `Add` -/

namespace consistenthash

theorem foldl_addReplica (key : String) (peers : List String) (hkey : key ∈ peers) :
    ∀ (is : List Nat) (m : Map), (∀ i ∈ is, i < m.replicas.toNat) →
      (is.foldl (fun m i => addReplica m key i) m).hash = m.hash ∧
      (is.foldl (fun m i => addReplica m key i) m).replicas = m.replicas ∧
      (is.foldl (fun m i => addReplica m key i) m).keys
        = m.keys ++ is.map (fun i => hashInt m.hash (toString i ++ key)) ∧
      (Owned m peers → Owned (is.foldl (fun m i => addReplica m key i) m) peers) ∧
      (Indexed m → Indexed (is.foldl (fun m i => addReplica m key i) m)) := by
  intro is
  induction is with
  | nil =>
    intro m _
    simp
  | cons i is ih =>
    intro m hlt
    have hi : i < m.replicas.toNat := hlt i (List.mem_cons_self _ _)
    obtain ⟨h1, h2, h3, h4, h5⟩ := ih (addReplica m key i)
      (fun j hj => hlt j (List.mem_cons_of_mem _ hj))
    have e1 : (addReplica m key i).hash = m.hash := rfl
    have e2 : (addReplica m key i).replicas = m.replicas := rfl
    rw [List.foldl_cons]
    refine ⟨h1.trans e1, h2.trans e2, ?_, ?_, ?_⟩
    · rw [h3, e1]
      simp [addReplica]
    · intro ho
      apply h4
      intro h p hl
      rw [e1, e2]
      simp only [addReplica, GoMap.lookup_insert] at hl
      by_cases hh : hashInt m.hash (toString i ++ key) = h
      · rw [if_pos hh] at hl
        simp only [Option.some.injEq] at hl
        subst hl
        refine ⟨hkey, ?_⟩
        unfold virtualNodes
        exact List.mem_map.mpr ⟨i, List.mem_range.mpr hi, hh⟩
      · rw [if_neg hh] at hl
        exact ho h p hl
    · intro hidx
      apply h5
      intro h hh
      simp only [addReplica, GoMap.lookup_insert, List.mem_append, List.mem_singleton] at hh ⊢
      by_cases hhe : hashInt m.hash (toString i ++ key) = h
      · rw [if_pos hhe]
        rfl
      · rw [if_neg hhe]
        rcases hh with hh | hh
        · exact hidx h hh
        · exact absurd hh.symm hhe

theorem addKey_spec (m : Map) (key : String) (peers : List String) (hkey : key ∈ peers) :
    (addKey m key).hash = m.hash ∧ (addKey m key).replicas = m.replicas ∧
    (addKey m key).keys = m.keys ++ virtualNodes m.hash m.replicas key ∧
    (Owned m peers → Owned (addKey m key) peers) ∧
    (Indexed m → Indexed (addKey m key)) :=
  foldl_addReplica key peers hkey (List.range m.replicas.toNat) m
    (fun _ hi => List.mem_range.mp hi)

theorem foldl_addKey (peers : List String) :
    ∀ (ps : List String) (m : Map), (∀ p ∈ ps, p ∈ peers) →
      (ps.foldl addKey m).hash = m.hash ∧ (ps.foldl addKey m).replicas = m.replicas ∧
      (ps.foldl addKey m).keys = m.keys ++ ps.flatMap (virtualNodes m.hash m.replicas) ∧
      (Owned m peers → Owned (ps.foldl addKey m) peers) ∧
      (Indexed m → Indexed (ps.foldl addKey m)) := by
  intro ps
  induction ps with
  | nil =>
    intro m _
    simp
  | cons p ps ih =>
    intro m hsub
    obtain ⟨a1, a2, a3, a4, a5⟩ := addKey_spec m p peers (hsub p (List.mem_cons_self _ _))
    obtain ⟨h1, h2, h3, h4, h5⟩ := ih (addKey m p) (fun q hq => hsub q (List.mem_cons_of_mem _ hq))
    rw [List.foldl_cons]
    refine ⟨h1.trans a1, h2.trans a2, ?_, fun ho => h4 (a4 ho), fun hi => h5 (a5 hi)⟩
    rw [h3, a3, a1, a2]
    simp

theorem Add_hash (m : Map) (ps : List String) : (Add m ps).hash = m.hash :=
  (foldl_addKey ps ps m (fun _ h => h)).1

theorem Add_replicas (m : Map) (ps : List String) : (Add m ps).replicas = m.replicas :=
  (foldl_addKey ps ps m (fun _ h => h)).2.1

theorem Owned_mono {m : Map} {S T : List String} (h : Owned m S) (hsub : ∀ p ∈ S, p ∈ T) :
    Owned m T :=
  fun k p hl => ⟨hsub p (h k p hl).1, (h k p hl).2⟩

theorem RingInv_Add {m : Map} {peers : List String} (h : RingInv m peers) (ps : List String) :
    RingInv (Add m ps) (peers ++ ps) := by
  obtain ⟨h1, h2, h3, h4, h5⟩ := foldl_addKey (peers ++ ps) ps m
    (fun p hp => List.mem_append_right _ hp)
  have hperm : List.Perm (Add m ps).keys (m.keys ++ ps.flatMap (virtualNodes m.hash m.replicas)) := by
    show List.Perm (sortInts (ps.foldl addKey m).keys) _
    rw [h3]
    exact List.perm_insertionSort _ _
  refine ⟨List.sorted_insertionSort _ _, ?_, ?_, ?_⟩
  · rw [Add_hash, Add_replicas, List.flatMap_append]
    exact hperm.trans (h.keys_perm.append_right _)
  · have ho := h4 (Owned_mono h.owned (fun p hp => List.mem_append_left _ hp))
    intro k p hl
    rw [Add_hash, Add_replicas]
    have := ho k p hl
    rw [h1, h2] at this
    exact this
  · intro k hk
    have hk' : k ∈ (ps.foldl addKey m).keys := by
      rw [h3]
      exact hperm.subset hk
    exact h5 h.indexed k hk'

theorem RingInv_New (replicas : Int) (fn : Option Hash) : RingInv (New replicas fn) [] := by
  refine ⟨?_, ?_, ?_, ?_⟩
  · simp [New]
  · simp [New]
  · intro k p hl
    simp [New, GoMap.lookup] at hl
  · intro k hk
    simp [New] at hk

theorem foldl_Add_inv (batches : List (List String)) :
    ∀ (m : Map) (peers : List String), RingInv m peers →
      RingInv (batches.foldl Add m) (peers ++ batches.flatten) ∧
      (batches.foldl Add m).hash = m.hash ∧ (batches.foldl Add m).replicas = m.replicas := by
  induction batches with
  | nil =>
    intro m peers h
    simpa using h
  | cons b bs ih =>
    intro m peers h
    obtain ⟨i1, i2, i3⟩ := ih (Add m b) (peers ++ b) (RingInv_Add h b)
    rw [List.foldl_cons, List.flatten_cons, ← List.append_assoc]
    exact ⟨i1, i2.trans (Add_hash m b), i3.trans (Add_replicas m b)⟩

theorem build_inv (replicas : Int) (fn : Option Hash) (batches : List (List String)) :
    RingInv (build replicas fn batches) batches.flatten ∧
    (build replicas fn batches).hash = (New replicas fn).hash ∧
    (build replicas fn batches).replicas = replicas := by
  have := foldl_Add_inv batches (New replicas fn) [] (RingInv_New replicas fn)
  simpa [build] using this

end consistenthash


/-! ## Lookup on the ring -/

namespace consistenthash

theorem index_of_indexed {m : Map} (hi : Indexed m) {v : Int} (hv : v ∈ m.keys) :
    GoMap.lookup m.hashMap v = some (index m.hashMap v) := by
  unfold index
  cases hl : GoMap.lookup m.hashMap v with
  | none =>
    have := hi v hv
    rw [hl] at this
    cases this
  | some p => rfl

theorem Get_empty {m : Map} (h : m.keys = []) (key : String) : Get m key = "" := by
  unfold Get
  rw [if_pos (by rw [h]; rfl)]

/-- C5 (ring lookup). On every ring built by `New` and calls of `Add` that has at least
one entry, `Get(key)` returns the peer that `hashMap` binds to a ring value `v` which is
the smallest ring value `≥ hash(key)`, or the smallest ring value overall when
`hash(key)` exceeds every ring value; so the binary search of `Get` agrees with the
reference lookup `GetRef`. -/
theorem Get_ring_lookup (replicas : Int) (fn : Option Hash) (batches : List (List String))
    (key : String) (hne : (build replicas fn batches).keys ≠ []) :
    Get (build replicas fn batches) key = GetRef (build replicas fn batches) key ∧
    ∃ v ∈ (build replicas fn batches).keys,
      GoMap.lookup (build replicas fn batches).hashMap v
        = some (Get (build replicas fn batches) key) ∧
      ((hashInt (build replicas fn batches).hash key ≤ v ∧
          ∀ w ∈ (build replicas fn batches).keys,
            hashInt (build replicas fn batches).hash key ≤ w → v ≤ w) ∨
       ((∀ w ∈ (build replicas fn batches).keys,
            w < hashInt (build replicas fn batches).hash key) ∧
          ∀ w ∈ (build replicas fn batches).keys, v ≤ w)) := by
  obtain ⟨hinv, _, _⟩ := build_inv replicas fn batches
  generalize build replicas fn batches = m at hne hinv ⊢
  obtain ⟨v, hv, hget, hc⟩ := Get_spec m hinv.sorted hne key
  refine ⟨?_, v, hv, ?_, hc⟩
  · unfold GetRef
    rw [successor_spec hv hc]
    exact hget
  · rw [hget]
    exact index_of_indexed hinv.indexed hv

/-- Witness of C5: a ring of two peers with one replica each and the length of the
string as hash; the key `wxyz` hashes beyond every ring value and wraps around. -/
theorem Get_ring_lookup_witness :
    Get (build 1 (some String.length) [["a", "bc"]]) "wxyz"
      = GetRef (build 1 (some String.length) [["a", "bc"]]) "wxyz" ∧
    Get (build 1 (some String.length) [["a", "bc"]]) "wxyz" = "a" :=
  ⟨(Get_ring_lookup 1 (some String.length) [["a", "bc"]] "wxyz" (by decide)).1, by decide⟩

theorem mem_keys_iff {m : Map} {peers : List String} (h : RingInv m peers) (k : Int) :
    k ∈ m.keys ↔ ∃ p ∈ peers, k ∈ virtualNodes m.hash m.replicas p := by
  rw [h.keys_perm.mem_iff, List.mem_flatMap]

theorem Get_same_names (replicas : Int) (fn : Option Hash)
    (batches₁ batches₂ : List (List String))
    (hsame : ∀ p, p ∈ batches₁.flatten ↔ p ∈ batches₂.flatten)
    (hnc : ∀ p ∈ batches₁.flatten, ∀ q ∈ batches₁.flatten, ∀ h,
      h ∈ virtualNodes (New replicas fn).hash replicas p →
      h ∈ virtualNodes (New replicas fn).hash replicas q → p = q)
    (key : String) :
    Get (build replicas fn batches₁) key = Get (build replicas fn batches₂) key := by
  obtain ⟨i1, a1, b1⟩ := build_inv replicas fn batches₁
  obtain ⟨i2, a2, b2⟩ := build_inv replicas fn batches₂
  generalize build replicas fn batches₁ = m₁ at i1 a1 b1 ⊢
  generalize build replicas fn batches₂ = m₂ at i2 a2 b2 ⊢
  have hkeys : ∀ k, k ∈ m₁.keys ↔ k ∈ m₂.keys := by
    intro k
    rw [mem_keys_iff i1, mem_keys_iff i2, a1, a2, b1, b2]
    constructor
    · rintro ⟨p, hp, hk⟩
      exact ⟨p, (hsame p).mp hp, hk⟩
    · rintro ⟨p, hp, hk⟩
      exact ⟨p, (hsame p).mpr hp, hk⟩
  by_cases hne : m₁.keys = []
  · have hne2 : m₂.keys = [] := by
      apply List.eq_nil_iff_forall_not_mem.mpr
      intro k hk
      have := (hkeys k).mpr hk
      rw [hne] at this
      cases this
    rw [Get_empty hne, Get_empty hne2]
  · have hne2 : m₂.keys ≠ [] := by
      intro h2
      obtain ⟨k, hk⟩ := List.exists_mem_of_ne_nil _ hne
      have := (hkeys k).mp hk
      rw [h2] at this
      cases this
    obtain ⟨v₁, hv₁, g₁, c₁⟩ := Get_spec m₁ i1.sorted hne key
    obtain ⟨v₂, hv₂, g₂, c₂⟩ := Get_spec m₂ i2.sorted hne2 key
    rw [a1] at c₁
    rw [a2] at c₂
    have hv : v₁ = v₂ := by
      have hv₁' := (hkeys v₁).mp hv₁
      have hv₂' := (hkeys v₂).mpr hv₂
      rcases c₁ with ⟨x1, y1⟩ | ⟨x1, y1⟩ <;> rcases c₂ with ⟨x2, y2⟩ | ⟨x2, y2⟩
      · exact le_antisymm (y1 v₂ hv₂' x2) (y2 v₁ hv₁' x1)
      · have := x2 v₁ hv₁'
        omega
      · have := x1 v₂ hv₂'
        omega
      · exact le_antisymm (y1 v₂ hv₂') (y2 v₁ hv₁')
    subst hv
    have l₁ := index_of_indexed i1.indexed hv₁
    have l₂ := index_of_indexed i2.indexed hv₂
    obtain ⟨p₁, q₁⟩ := i1.owned _ _ l₁
    obtain ⟨p₂, q₂⟩ := i2.owned _ _ l₂
    rw [a1, b1] at q₁
    rw [a2, b2] at q₂
    rw [g₁, g₂]
    exact hnc _ p₁ _ ((hsame _).mpr p₂) v₁ q₁ q₂

/-- C6 (ring determinism), under the proviso that no two virtual nodes of different peers
have the same hash. Two rings built with the same replica count and hash function, to
which the same peer names were added in any order and in any grouping into calls of
`Add`, return the same peer from `Get(k)` for every key, and any number of repeated calls
of `Get(k)` on one ring return that same peer (`Get` does not write to the ring). -/
theorem Get_order_independent (replicas : Int) (fn : Option Hash)
    (batches₁ batches₂ : List (List String))
    (hsame : ∀ p, p ∈ batches₁.flatten ↔ p ∈ batches₂.flatten)
    (hnc : ∀ p ∈ batches₁.flatten, ∀ q ∈ batches₁.flatten, ∀ h,
      h ∈ virtualNodes (New replicas fn).hash replicas p →
      h ∈ virtualNodes (New replicas fn).hash replicas q → p = q)
    (key : String) :
    Get (build replicas fn batches₁) key = Get (build replicas fn batches₂) key ∧
    ∀ n : Nat, (List.replicate n key).map (Get (build replicas fn batches₁))
      = List.replicate n (Get (build replicas fn batches₂) key) := by
  have hmain := Get_same_names replicas fn batches₁ batches₂ hsame hnc key
  refine ⟨hmain, fun n => ?_⟩
  rw [List.map_replicate, hmain]

/-- Witness of C6: the peers `a` and `bc` added in one call and, reversed, in two calls;
the length of the string is the hash, so their virtual nodes do not collide. -/
theorem Get_order_independent_witness :
    Get (build 1 (some String.length) [["a", "bc"]]) "xyz"
      = Get (build 1 (some String.length) [["bc"], ["a"]]) "xyz" :=
  (Get_order_independent 1 (some String.length) [["a", "bc"]] [["bc"], ["a"]]
    (fun p => by simp [or_comm]) (by decide) "xyz").1

/-- Counterexample to C6 as stated (every hash function): with one replica and the length
of the string as hash, the virtual nodes of `a` and `b` collide, `hashMap` keeps the peer
written last, and the two insertion orders answer the same key differently. -/
theorem Get_order_independent_counterexample :
    Get (build 1 (some String.length) [["a", "b"]]) "k" = "b" ∧
    Get (build 1 (some String.length) [["b", "a"]]) "k" = "a" ∧
    Get (build 1 (some String.length) [["a", "b"]]) "k"
      ≠ Get (build 1 (some String.length) [["b", "a"]]) "k" := by
  decide

end consistenthash


/-! ## Coverage of the ring -/

namespace consistenthash

theorem keys_eq_nil_of_no_nodes {m : Map} {peers : List String} (h : RingInv m peers)
    (hn : ∀ p ∈ peers, virtualNodes m.hash m.replicas p = []) : m.keys = [] := by
  apply List.eq_nil_iff_forall_not_mem.mpr
  intro k hk
  obtain ⟨p, hp, hkp⟩ := (mem_keys_iff h k).mp hk
  rw [hn p hp] at hkp
  cases hkp

/-- C7 (ring coverage), for a ring with at least one replica per peer. Once a peer name
has been passed to `Add`, `Get(key)` returns one of the names that were added, hence
never the empty string unless the empty string was added as a name; when no name has
been added, or when `replicas ≤ 0`, `Get(key)` returns the empty string. -/
theorem Get_coverage (replicas : Int) (fn : Option Hash) (batches : List (List String))
    (key : String) :
    (1 ≤ replicas → batches.flatten ≠ [] →
      Get (build replicas fn batches) key ∈ batches.flatten ∧
      ("" ∉ batches.flatten → Get (build replicas fn batches) key ≠ "")) ∧
    (batches.flatten = [] → Get (build replicas fn batches) key = "") ∧
    (replicas ≤ 0 → Get (build replicas fn batches) key = "") := by
  obtain ⟨hinv, ha, hb⟩ := build_inv replicas fn batches
  generalize build replicas fn batches = m at hinv ha hb ⊢
  refine ⟨?_, ?_, ?_⟩
  · intro hr hne
    have hmem : Get m key ∈ batches.flatten := by
      obtain ⟨p, hp⟩ := List.exists_mem_of_ne_nil _ hne
      have hk : hashInt m.hash (toString 0 ++ p) ∈ m.keys := by
        rw [mem_keys_iff hinv]
        refine ⟨p, hp, ?_⟩
        unfold virtualNodes
        exact List.mem_map.mpr ⟨0, List.mem_range.mpr (by omega), rfl⟩
      obtain ⟨v, hv, hget, _⟩ := Get_spec m hinv.sorted (List.ne_nil_of_mem hk) key
      rw [hget]
      exact (hinv.owned _ _ (index_of_indexed hinv.indexed hv)).1
    exact ⟨hmem, fun hno heq => hno (heq ▸ hmem)⟩
  · intro hnil
    apply Get_empty
    apply keys_eq_nil_of_no_nodes hinv
    intro p hp
    rw [hnil] at hp
    cases hp
  · intro hr
    apply Get_empty
    apply keys_eq_nil_of_no_nodes hinv
    intro p _
    unfold virtualNodes
    have : m.replicas.toNat = 0 := by omega
    rw [this]
    rfl

/-- Witness of C7: three replicas of the peers `a` and `bc`. -/
theorem Get_coverage_witness :
    Get (build 3 (some String.length) [["a"], ["bc"]]) "k" ∈ [["a"], ["bc"]].flatten ∧
    Get (build 3 (some String.length) [["a"], ["bc"]]) "k" ≠ "" :=
  have h := (Get_coverage 3 (some String.length) [["a"], ["bc"]] "k").1 (by decide) (by decide)
  ⟨h.1, h.2 (by decide)⟩

/-- Counterexample to C7 as stated: with `replicas = 0` the call `Add("a")` puts nothing
on the ring and `Get` still returns the empty string; and with one replica, after
`Add("")` the peer that `Get` returns is the empty string. -/
theorem Get_coverage_counterexample :
    Get (build 0 none [["a"]]) "k" = "" ∧
    Get (build 0 none [["a"]]) "k" ∉ [["a"]].flatten ∧
    Get (build 1 (some String.length) [[""]]) "k" = "" := by
  decide

end consistenthash


/-! ## What `Add` keeps -/

namespace lru

variable {V σ : Type}

theorem Get_miss_state (c : Cache V σ) (k : String) (h : (Get c k).1 = none) :
    (Get c k).2 = c := by
  unfold Get at h ⊢
  cases hl : GoMap.lookup c.cache k with
  | none => rfl
  | some i =>
    rw [hl] at h
    simp only at h ⊢
    cases hf : findElement (MoveToFront c.ll i) i with
    | none => rfl
    | some e =>
      rw [hf] at h
      cases h

theorem evictLoop_keeps_head [Value V] (fuel : Nat) {c c' : Cache V σ} (hi : Inv c)
    {k : String} {v : V} {l : List (String × V)} (hl : entries c = (k, v) :: l)
    (hfit : c.maxBytes = 0 ∨ wrap64 (len k + Value.Len v) ≤ c.maxBytes)
    (h : evictLoop fuel c = some c') : (k, v) ∈ entries c' := by
  induction fuel generalizing c l with
  | zero =>
    by_cases hc : c.maxBytes ≠ 0 ∧ c.maxBytes < c.nbytes
    · rw [evictLoop_out_of_fuel hc] at h
      cases h
    · rw [evictLoop_zero_or_fits hc] at h
      cases h
      rw [hl]
      exact List.mem_cons_self _ _
  | succ n ih =>
    by_cases hc : c.maxBytes ≠ 0 ∧ c.maxBytes < c.nbytes
    · rw [evictLoop_step hc] at h
      rcases List.eq_nil_or_concat l with hn | ⟨l0, p, hn⟩
      · exfalso
        have hnb : c.nbytes = wrap64 (len k + Value.Len v) := by
          rw [hi.nbytes_eq, sumCost_eq_totalCost, hl, hn]
          simp [totalCost]
        rcases hfit with h0 | hle
        · exact hc.1 h0
        · have := hc.2
          omega
      · rw [List.concat_eq_append] at hn
        have hl' : entries c = ((k, v) :: l0) ++ [p] := by rw [hl, hn]; rfl
        obtain ⟨e1, _⟩ := entries_RemoveOldest_snoc hi hl'
        exact ih (Inv_RemoveOldest hi) e1 (by rw [RemoveOldest_maxBytes]; exact hfit) h
    · rw [evictLoop_zero_or_fits hc] at h
      cases h
      rw [hl]
      exact List.mem_cons_self _ _

theorem Add_stores [Value V] {c c' : Cache V σ} (hi : Inv c) {fuel : Nat} {k : String}
    {v : V} (hfit : c.maxBytes = 0 ∨ wrap64 (len k + Value.Len v) ≤ c.maxBytes)
    (h : Add fuel c k v = some c') : (Get c' k).1 = some v := by
  unfold Add at h
  have i1 := Inv_addEntry hi k v
  have i2 := Inv_evictLoop fuel i1 h
  rw [Get_fst_some_iff i2]
  by_cases hk : k ∈ (entries c).map Prod.fst
  · obtain ⟨⟨k', old⟩, hmem, rfl⟩ := List.mem_map.mp hk
    exact evictLoop_keeps_head fuel i1 (entries_addEntry_hit hi hmem v).1
      (by rw [addEntry_maxBytes]; exact hfit) h
  · exact evictLoop_keeps_head fuel i1 (entries_addEntry_miss hi hk v).1
      (by rw [addEntry_maxBytes]; exact hfit) h

end lru

/-! ## Groups -/

namespace gocache

variable {ε σ : Type}

theorem Group.Get_empty_key (fuel : Nat) (g : Group ε σ) :
    Group.Get fuel g "" = some ((⟨[]⟩, some (GoError.errorf "key is empty")), g) := by
  unfold Group.Get
  rw [if_pos rfl]

theorem Group.Get_uncached (fuel : Nat) (g : Group ε σ) {key : String} (hk : key ≠ "")
    (h : (lru.Get g.mainCache.store key).1 = none) :
    Group.Get fuel g key
      = Group.getLocally fuel
          { g with mainCache := { g.mainCache with lru := some g.mainCache.store } } key := by
  unfold Group.Get Group.load
  rw [if_neg hk]
  have h1 : (g.mainCache.get key).1 = none := h
  have h2 : (g.mainCache.get key).2 = { g.mainCache with lru := some g.mainCache.store } := by
    unfold cache.get
    rw [lru.Get_miss_state _ _ h]
  rw [h1, h2]

theorem Group.getLocally_err (fuel : Nat) (g : Group ε σ) (key : String) {err : GoError ε}
    (h : (g.getter key g.world).1.2 = some err) :
    Group.getLocally fuel g key
      = some ((⟨[]⟩, some err),
          { g with world := (g.getter key g.world).2, loads := g.loads ++ [key] }) := by
  unfold Group.getLocally
  simp only [h]

theorem Group.getLocally_ok (fuel : Nat) (g : Group ε σ) (key : String)
    (h : (g.getter key g.world).1.2 = none) :
    Group.getLocally fuel g key
      = match lru.Add fuel g.mainCache.store key ⟨cloneBytes (g.getter key g.world).1.1⟩ with
        | some l =>
          some ((⟨cloneBytes (g.getter key g.world).1.1⟩, none),
            { g with
              mainCache := { g.mainCache with lru := some l }
              world := (g.getter key g.world).2
              loads := g.loads ++ [key] })
        | none => none := by
  unfold Group.getLocally Group.populateCache cache.add
  simp only [h]
  cases lru.Add fuel g.mainCache.store key ⟨cloneBytes (g.getter key g.world).1.1⟩ <;> rfl

theorem Group.Get_uncached_err (fuel : Nat) (g : Group ε σ) {key : String} (hk : key ≠ "")
    (hv : (lru.Get g.mainCache.store key).1 = none) {err : GoError ε}
    (he : (g.getter key g.world).1.2 = some err) :
    Group.Get fuel g key
      = some ((⟨[]⟩, some err),
          { g with
            mainCache := { g.mainCache with lru := some g.mainCache.store }
            world := (g.getter key g.world).2
            loads := g.loads ++ [key] }) := by
  rw [Group.Get_uncached fuel g hk hv]
  exact Group.getLocally_err fuel
    { g with mainCache := { g.mainCache with lru := some g.mainCache.store } } key he

theorem Group.Get_uncached_ok (fuel : Nat) (g : Group ε σ) {key : String} (hk : key ≠ "")
    (hv : (lru.Get g.mainCache.store key).1 = none)
    (he : (g.getter key g.world).1.2 = none) :
    Group.Get fuel g key
      = match lru.Add fuel g.mainCache.store key ⟨cloneBytes (g.getter key g.world).1.1⟩ with
        | some l =>
          some ((⟨cloneBytes (g.getter key g.world).1.1⟩, none),
            { g with
              mainCache := { g.mainCache with lru := some l }
              world := (g.getter key g.world).2
              loads := g.loads ++ [key] })
        | none => none := by
  rw [Group.Get_uncached fuel g hk hv]
  exact Group.getLocally_ok fuel
    { g with mainCache := { g.mainCache with lru := some g.mainCache.store } } key he

end gocache


/-! ## `Group.Get` -/

namespace gocache

variable {ε σ : Type}

/-- C9 (empty-key rejection). In every state of every group, `Get("")` returns the empty
`ByteView` together with the error made from the message `key is empty`, and the group
afterwards is the group before: the loader was not invoked and the cache is unchanged. -/
theorem Get_empty_key_rejected (fuel : Nat) (g : Group ε σ) :
    ∃ g', Group.Get fuel g "" = some ((⟨[]⟩, some (GoError.errorf "key is empty")), g')
      ∧ g'.loads = g.loads ∧ g'.world = g.world ∧ g'.mainCache = g.mainCache ∧ g' = g :=
  ⟨g, by unfold Group.Get; rw [if_pos rfl], rfl, rfl, rfl, rfl⟩

/-- C10 (loader errors). For every group and every non-empty key `k` that is not in the
cache, if the loader returns the error `e`, then `Get(k)` returns the empty `ByteView`
together with exactly `e`, after one invocation of the loader; the eviction store and the
byte budget of the cache are unchanged, `k` is still not in the cache, and the next
`Get(k)` that returns has invoked the loader once more. -/
theorem Get_loader_error (g : Group ε σ) (k : String) (hk : k ≠ "")
    (bytes : List UInt8) (e : GoError ε) (w' : σ)
    (hmiss : (g.mainCache.get k).1 = none)
    (hload : g.getter k g.world = ((bytes, some e), w')) (fuel : Nat) :
    ∃ g', Group.Get fuel g k = some ((⟨[]⟩, some e), g')
      ∧ g'.mainCache.store = g.mainCache.store
      ∧ g'.mainCache.cacheBytes = g.mainCache.cacheBytes
      ∧ (g'.mainCache.get k).1 = none
      ∧ g'.loads = g.loads ++ [k] ∧ g'.world = w'
      ∧ ∀ fuel' r g'', Group.Get fuel' g' k = some (r, g'') →
          g''.loads = g.loads ++ [k] ++ [k] := by
  have hv : (lru.Get g.mainCache.store k).1 = none := hmiss
  have he : (g.getter k g.world).1.2 = some e := by rw [hload]
  have hw : (g.getter k g.world).2 = w' := by rw [hload]
  refine ⟨_, Group.Get_uncached_err fuel g hk hv he, rfl, rfl, hmiss, rfl, hw, ?_⟩
  intro fuel' r g'' hnext
  generalize hg' : ({ g with
      mainCache := { g.mainCache with lru := some g.mainCache.store }
      world := (g.getter k g.world).2
      loads := g.loads ++ [k] } : Group ε σ) = g' at hnext
  have hv' : (lru.Get g'.mainCache.store k).1 = none := by
    rw [← hg']
    exact hv
  have hl' : g'.loads = g.loads ++ [k] := by rw [← hg']
  cases he' : (g'.getter k g'.world).1.2 with
  | some err =>
    rw [Group.Get_uncached_err fuel' g' hk hv' he'] at hnext
    simp only [Option.some.injEq, Prod.mk.injEq] at hnext
    rw [← hnext.2, ← hl']
  | none =>
    rw [Group.Get_uncached_ok fuel' g' hk hv' he'] at hnext
    cases ha : lru.Add fuel' g'.mainCache.store k
        ⟨cloneBytes (g'.getter k g'.world).1.1⟩ with
    | none =>
      rw [ha] at hnext
      cases hnext
    | some l =>
      rw [ha] at hnext
      simp only [Option.some.injEq, Prod.mk.injEq] at hnext
      rw [← hnext.2, ← hl']

/-- Witness of C10: the group of the examples and the key `bad`. -/
theorem Get_loader_error_witness :
    ∃ g', Group.Get 0 exampleGroup "bad" = some ((⟨[]⟩, some (GoError.other ())), g')
      ∧ g'.mainCache.store = exampleGroup.mainCache.store
      ∧ g'.loads = ["bad"] := by
  obtain ⟨g', h1, h2, _, _, h5, _⟩ :=
    Get_loader_error exampleGroup "bad" (by decide) [] (GoError.other ()) () rfl rfl 0
  exact ⟨g', h1, h2, h5⟩

end gocache


/-! ## `RemoveOldest` -/

namespace lru

variable {V σ : Type}

theorem ll_snoc_of_entries [Value V] {c : Cache V σ} {l : List (String × V)} {k : String}
    {v : V} (hl : entries c = l ++ [(k, v)]) :
    ∃ l0 e, c.ll = l0 ++ [e] ∧ e.Value.key = k ∧ e.Value.value = v
      ∧ l0.map (fun e => (e.Value.key, e.Value.value)) = l := by
  rcases List.eq_nil_or_concat c.ll with hn | ⟨l0, e, hn⟩
  · simp [entries, hn] at hl
  · rw [List.concat_eq_append] at hn
    unfold entries at hl
    rw [hn, List.map_append, List.map_singleton] at hl
    obtain ⟨h1, h2⟩ := List.append_inj' hl (by simp)
    simp only [List.cons.injEq, Prod.mk.injEq, and_true] at h2
    exact ⟨l0, e, hn, h2.1, h2.2, h1⟩

/-- C11 (`RemoveOldest`), in `int64` arithmetic. On a reachable store whose entries are
`l` followed by the least recently used entry `(k, v)`, `RemoveOldest` leaves exactly `l`
in the same order, deletes `k` and nothing else from the index, sets `nbytes` to the
`int64` difference `nbytes - (len(k) + v.Len())`, which is the exact difference whenever
that difference lies between `MinInt64` and `MaxInt64`, and applies `OnEvicted`, if set,
once to `(k, v)`; the callback runs last: the store it reads has the entries `l`, the
index without `k` and the decreased `nbytes`, which are those of the store that
`RemoveOldest` leaves. On a store without entries nothing changes: list, index, `nbytes`
and the state of the callback stay as they are. -/
theorem RemoveOldest_evicts_oldest [Value V] (maxBytes : Int)
    (onEvicted : Option (Callback V σ)) (env : σ) {c : Cache V σ}
    (hc : Reachable maxBytes onEvicted env c) :
    (∀ (l : List (String × V)) (k : String) (v : V), entries c = l ++ [(k, v)] →
      entries (RemoveOldest c) = l ∧
      (∀ k', GoMap.lookup (RemoveOldest c).cache k'
        = if k = k' then none else GoMap.lookup c.cache k') ∧
      (RemoveOldest c).nbytes = wrap64 (c.nbytes - (len k + Value.Len v)) ∧
      (MinInt64 ≤ c.nbytes - (len k + Value.Len v) →
        c.nbytes - (len k + Value.Len v) ≤ MaxInt64 →
        (RemoveOldest c).nbytes = c.nbytes - (len k + Value.Len v)) ∧
      (RemoveOldest c).env = (match c.OnEvicted with
        | some f =>
          f k v
            { entries := l
              index := (RemoveOldest c).cache.map Prod.fst
              nbytes := wrap64 (c.nbytes - (len k + Value.Len v)) }
            c.env
        | none => c.env) ∧
      k ∉ (RemoveOldest c).cache.map Prod.fst ∧
      observe (RemoveOldest c)
        = { entries := l
            index := (RemoveOldest c).cache.map Prod.fst
            nbytes := wrap64 (c.nbytes - (len k + Value.Len v)) } ∧
      Inv (RemoveOldest c)) ∧
    (entries c = [] →
      (RemoveOldest c).ll = c.ll ∧ (RemoveOldest c).cache = c.cache ∧
      (RemoveOldest c).nbytes = c.nbytes ∧ (RemoveOldest c).env = c.env) := by
  obtain ⟨hi, _⟩ := Reachable_Inv hc
  constructor
  · intro l k v hl
    obtain ⟨l0, e, hn, rfl, rfl, hl0⟩ := ll_snoc_of_entries hl
    have hrm := RemoveOldest_snoc hi hn
    have hi' := Inv_RemoveOldest hi
    have hlook : ∀ k', GoMap.lookup (RemoveOldest c).cache k'
        = if e.Value.key = k' then none else GoMap.lookup c.cache k' := by
      intro k'
      rw [hrm]
      exact GoMap.lookup_erase _ _ _
    have hnb : (RemoveOldest c).nbytes
        = wrap64 (c.nbytes - (len e.Value.key + Value.Len e.Value.value)) := by
      rw [hrm]
    have hcache : (RemoveOldest c).cache = GoMap.erase c.cache e.Value.key := by
      rw [hrm]
    refine ⟨?_, hlook, hnb, ?_, ?_, ?_, ?_, hi'⟩
    · rw [hrm]
      exact hl0
    · intro h1 h2
      rw [hnb]
      exact wrap64_inRange h1 h2
    · rw [hcache, ← hl0, hrm]
    · intro hmem
      rw [← GoMap.lookup_isSome_iff, hlook, if_pos rfl] at hmem
      cases hmem
    · unfold observe
      rw [hnb]
      congr 1
      rw [← hl0, hrm]
  · intro hnil
    have hl : c.ll = [] := by
      unfold entries at hnil
      exact List.map_eq_nil_iff.mp hnil
    rw [RemoveOldest_nil hl]
    exact ⟨rfl, rfl, rfl, rfl⟩

/-- Witness of C11: the store that holds `b` and `a`, with a callback that logs the
evicted pair, the keys it finds in the store and the byte counter it reads. -/
theorem RemoveOldest_evicts_oldest_witness :
    entries (RemoveOldest (addEntry (addEntry
        (New 10 (some logEviction) [] : Cache String (List (String × String × List String × Int)))
        "a" "1") "b" "2")) = [("b", "2")] ∧
    (RemoveOldest (addEntry (addEntry
        (New 10 (some logEviction) [] : Cache String (List (String × String × List String × Int)))
        "a" "1") "b" "2")).nbytes = 4 - (1 + 1) ∧
    (RemoveOldest (addEntry (addEntry
        (New 10 (some logEviction) [] : Cache String (List (String × String × List String × Int)))
        "a" "1") "b" "2")).env = [("a", "1", ["b"], 2)] :=
  have h := (RemoveOldest_evicts_oldest 10 (some logEviction) []
    (Reachable.add 0 "b" "2" (Reachable.add 0 "a" "1" Reachable.new rfl) rfl)).1
    [("b", "2")] "a" "1" rfl
  ⟨h.1, h.2.2.2.1 (by decide) (by decide), h.2.2.2.2.1⟩

/-- Counterexample to C11 as stated: on the unbounded store that holds `a` with a value of
`Len` `MaxInt64` and, as its oldest entry, `b` with a value of `Len` -5, `nbytes` is
`MaxInt64 - 3`, the exact total cost; `RemoveOldest` removes `b`, of cost -4, and leaves
`nbytes` at `MinInt64`, not at `MaxInt64 - 3 - (-4)`. -/
theorem RemoveOldest_evicts_oldest_counterexample :
    ∃ c1 c2 : Cache Int Unit,
      Add 0 (New 0 none ()) "b" (-5) = some c1 ∧
      Add 0 c1 "a" 9223372036854775807 = some c2 ∧
      entries c2 = [("a", 9223372036854775807), ("b", -5)] ∧
      c2.nbytes = 9223372036854775804 ∧
      c2.nbytes = totalCost (entries c2) ∧
      entries (RemoveOldest c2) = [("a", 9223372036854775807)] ∧
      (RemoveOldest c2).nbytes = -9223372036854775808 ∧
      (RemoveOldest c2).nbytes ≠ c2.nbytes - (len "b" + Value.Len (-5 : Int)) :=
  ⟨_, _, rfl, rfl, by decide, by decide, by decide, by decide, by decide, by decide⟩

end lru

/-! ## Structure and accounting of the store -/

namespace GoMap

variable {κ ν : Type} [DecidableEq κ]

theorem lookup_of_mem {m : List (κ × ν)} (hn : (m.map Prod.fst).Nodup) {k : κ} {v : ν}
    (h : (k, v) ∈ m) : lookup m k = some v := by
  induction m with
  | nil => cases h
  | cons p m ih =>
    obtain ⟨a, b⟩ := p
    simp only [List.map_cons, List.nodup_cons] at hn
    rcases List.mem_cons.mp h with heq | hmem
    · simp only [Prod.mk.injEq] at heq
      obtain ⟨rfl, rfl⟩ := heq
      simp [lookup]
    · have hne : a ≠ k := by
        intro hak
        exact hn.1 (hak ▸ List.mem_map_of_mem Prod.fst hmem)
      simp only [lookup, hne, if_false]
      exact ih hn.2 hmem

end GoMap

namespace lru

variable {V σ : Type}

theorem index_keys_iff [Value V] {c : Cache V σ} (hi : Inv c) (k : String) :
    k ∈ c.cache.map Prod.fst ↔ k ∈ (entries c).map Prod.fst := by
  rw [← GoMap.lookup_isSome_iff, keys_entries, Option.isSome_iff_exists]
  constructor
  · rintro ⟨i, hl⟩
    obtain ⟨e, he, _, hk⟩ := (hi.index k i).mp hl
    exact hk ▸ List.mem_map_of_mem (fun e => e.Value.key) he
  · intro hk
    obtain ⟨e, he, rfl⟩ := List.mem_map.mp hk
    exact ⟨e.id, index_lookup_of_mem hi he⟩

/-- C15 (structure of the store). In every state reachable from `New` by `Add`, `Get` and
`RemoveOldest`: no key occurs twice in the sequence; the keys of the index are the keys of
the sequence; every binding `(k, i)` of the index names an element of the sequence with
identity `i` and key `k`, and every element of the sequence is bound in the index under
its key; and `Len()` is the number of keys of the index. -/
theorem store_structure [Value V] (maxBytes : Int) (onEvicted : Option (Callback V σ))
    (env : σ) {c : Cache V σ} (hc : Reachable maxBytes onEvicted env c) :
    ((entries c).map Prod.fst).Nodup ∧
    (∀ k, k ∈ c.cache.map Prod.fst ↔ k ∈ (entries c).map Prod.fst) ∧
    (∀ p ∈ c.cache, ∃ e ∈ c.ll, e.id = p.2 ∧ e.Value.key = p.1) ∧
    (∀ e ∈ c.ll, GoMap.lookup c.cache e.Value.key = some e.id) ∧
    (c.cache.map Prod.fst).Nodup ∧
    Len c = (c.cache.map Prod.fst).length := by
  obtain ⟨hi, _⟩ := Reachable_Inv hc
  have hnd : ((entries c).map Prod.fst).Nodup := by
    rw [keys_entries]
    exact hi.keys_nodup
  refine ⟨hnd, index_keys_iff hi, ?_, fun e he => index_lookup_of_mem hi he,
    hi.index_nodup, ?_⟩
  · rintro ⟨k, i⟩ hp
    exact (hi.index k i).mp (GoMap.lookup_of_mem hi.index_nodup hp)
  · have hperm : List.Perm (c.cache.map Prod.fst) ((entries c).map Prod.fst) :=
      (List.perm_ext_iff_of_nodup hi.index_nodup hnd).mpr (index_keys_iff hi)
    rw [hperm.length_eq, Len_eq_entries_length, List.length_map]

/-- Witness of C15: the store after `Add("a")`, `Add("b")`, `Get("a")`. -/
theorem store_structure_witness :
    Len (Get (addEntry (addEntry (New 10 none () : Cache String Unit) "a" "1") "b" "2")
        "a").2
      = ((Get (addEntry (addEntry (New 10 none () : Cache String Unit) "a" "1") "b" "2")
        "a").2.cache.map Prod.fst).length :=
  (store_structure 10 none ()
    (Reachable.get "a" (Reachable.add 0 "b" "2"
      (Reachable.add 0 "a" "1" Reachable.new rfl) rfl))).2.2.2.2.2

theorem Get_nbytes (c : Cache V σ) (k : String) : (Get c k).2.nbytes = c.nbytes := by
  unfold Get
  cases GoMap.lookup c.cache k with
  | none => rfl
  | some i =>
    simp only
    cases findElement (MoveToFront c.ll i) i <;> rfl

/-- C18 (byte accounting), in `int64` arithmetic. In every state reachable from `New` by
`Add`, `Get` and `RemoveOldest`, `nbytes` is the `int64` sum of `len(key) + value.Len()`
over the stored entries, which is the exact sum whenever that sum lies between `MinInt64`
and `MaxInt64`; it is 0 when the store is empty, and `Get` leaves it as it is. -/
theorem nbytes_accounting [Value V] (maxBytes : Int)
    (onEvicted : Option (Callback V σ)) (env : σ) {c : Cache V σ}
    (hc : Reachable maxBytes onEvicted env c) :
    c.nbytes = wrap64 (totalCost (entries c)) ∧
    (MinInt64 ≤ totalCost (entries c) → totalCost (entries c) ≤ MaxInt64 →
      c.nbytes = totalCost (entries c)) ∧
    (entries c = [] → c.nbytes = 0) ∧
    (∀ k, (Get c k).2.nbytes = c.nbytes) := by
  obtain ⟨hi, _⟩ := Reachable_Inv hc
  have h1 : c.nbytes = wrap64 (totalCost (entries c)) := by
    rw [hi.nbytes_eq, sumCost_eq_totalCost]
  refine ⟨h1, ?_, ?_, Get_nbytes c⟩
  · intro hlo hhi
    rw [h1]
    exact wrap64_inRange hlo hhi
  · intro hnil
    rw [h1, hnil]
    exact wrap64_zero

/-- Witness of C18: the store after `Add("a","1")` and `Add("b","22")`. -/
theorem nbytes_accounting_witness :
    (addEntry (addEntry (New 10 none () : Cache String Unit) "a" "1") "b" "22").nbytes
      = totalCost [("b", "22"), ("a", "1")] :=
  (nbytes_accounting 10 none ()
    (Reachable.add 0 "b" "22" (Reachable.add 0 "a" "1" Reachable.new rfl) rfl)).2.1
    (by decide) (by decide)

/-- Counterexample to C18 as stated: after `Add` of `a` with a value of `Len` `MaxInt64`
on a fresh store of capacity 10 the store holds `a`, whose cost is `2^63`, and `nbytes` is
`MinInt64`. -/
theorem nbytes_accounting_counterexample :
    ∃ c : Cache Int Unit,
      Add 0 (New 10 none ()) "a" 9223372036854775807 = some c ∧
      entries c = [("a", 9223372036854775807)] ∧
      totalCost (entries c) = 9223372036854775808 ∧
      c.nbytes = -9223372036854775808 ∧
      c.nbytes ≠ totalCost (entries c) :=
  ⟨_, rfl, by decide, by decide, by decide, by decide⟩

end lru


/-! ## Termination of the eviction loop -/

namespace lru

variable {V σ : Type}

theorem RemoveOldest_removeCalls [Value V] (c : Cache V σ) :
    (RemoveOldest c).removeCalls = c.removeCalls + 1 := by
  unfold RemoveOldest
  cases Back c.ll with
  | none => rfl
  | some e => cases hc : c.OnEvicted <;> simp [hc]

theorem addEntry_removeCalls [Value V] (c : Cache V σ) (k : String) (v : V) :
    (addEntry c k v).removeCalls = c.removeCalls ∧ (addEntry c k v).env = c.env := by
  unfold addEntry
  cases GoMap.lookup c.cache k with
  | none => exact ⟨rfl, rfl⟩
  | some i =>
    simp only
    cases findElement (MoveToFront c.ll i) i <;> exact ⟨rfl, rfl⟩

theorem Get_removeCalls (c : Cache V σ) (k : String) :
    (Get c k).2.removeCalls = c.removeCalls ∧ (Get c k).2.env = c.env := by
  unfold Get
  cases GoMap.lookup c.cache k with
  | none => exact ⟨rfl, rfl⟩
  | some i =>
    simp only
    cases findElement (MoveToFront c.ll i) i <;> exact ⟨rfl, rfl⟩

theorem ll_ne_nil_of_over [Value V] {c : Cache V σ} (hi : Inv c) (hmax : 0 ≤ c.maxBytes)
    (hc : c.maxBytes ≠ 0 ∧ c.maxBytes < c.nbytes) : 1 ≤ c.ll.length := by
  rcases Nat.eq_zero_or_pos c.ll.length with h0 | hpos
  · have hl : c.ll = [] := List.length_eq_zero.mp h0
    have hn : c.nbytes = 0 := by rw [hi.nbytes_eq, hl]; rfl
    omega
  · exact hpos

theorem evictLoop_calls [Value V] (fuel : Nat) {c c' : Cache V σ} (hi : Inv c)
    (hmax : 0 ≤ c.maxBytes) (h : evictLoop fuel c = some c') :
    c'.removeCalls + c'.ll.length = c.removeCalls + c.ll.length := by
  induction fuel generalizing c with
  | zero =>
    by_cases hc : c.maxBytes ≠ 0 ∧ c.maxBytes < c.nbytes
    · rw [evictLoop_out_of_fuel hc] at h
      cases h
    · rw [evictLoop_zero_or_fits hc] at h
      cases h
      rfl
  | succ n ih =>
    by_cases hc : c.maxBytes ≠ 0 ∧ c.maxBytes < c.nbytes
    · rw [evictLoop_step hc] at h
      have := ih (Inv_RemoveOldest hi) (by rw [RemoveOldest_maxBytes]; exact hmax) h
      rw [this, RemoveOldest_removeCalls, RemoveOldest_length hi]
      have := ll_ne_nil_of_over hi hmax hc
      omega
    · rw [evictLoop_zero_or_fits hc] at h
      cases h
      rfl

theorem evictLoop_mono [Value V] (fuel : Nat) {c c' : Cache V σ}
    (h : evictLoop fuel c = some c') (extra : Nat) : evictLoop (fuel + extra) c = some c' := by
  induction fuel generalizing c with
  | zero =>
    by_cases hc : c.maxBytes ≠ 0 ∧ c.maxBytes < c.nbytes
    · rw [evictLoop_out_of_fuel hc] at h
      cases h
    · rw [evictLoop_zero_or_fits hc] at h ⊢
      exact h
  | succ n ih =>
    by_cases hc : c.maxBytes ≠ 0 ∧ c.maxBytes < c.nbytes
    · rw [evictLoop_step hc] at h
      rw [Nat.add_right_comm, evictLoop_step hc]
      exact ih h
    · rw [evictLoop_zero_or_fits hc] at h ⊢
      exact h

theorem evictLoop_unique [Value V] {f₁ f₂ : Nat} {c c₁ c₂ : Cache V σ}
    (h₁ : evictLoop f₁ c = some c₁) (h₂ : evictLoop f₂ c = some c₂) : c₁ = c₂ := by
  have e₁ := evictLoop_mono f₁ h₁ f₂
  have e₂ := evictLoop_mono f₂ h₂ f₁
  rw [Nat.add_comm] at e₂
  rw [e₁] at e₂
  exact Option.some.inj e₂

/-- C20 (termination of eviction). On a reachable store with `maxBytes ≥ 0`, for every key
and value, the eviction loop of `Add` stops within as many iterations as the store has
entries when the loop starts, and whenever `Add` returns it has called `RemoveOldest` at
most that many times. -/
theorem eviction_terminates [Value V] (maxBytes : Int)
    (onEvicted : Option (Callback V σ)) (env : σ) (hmax : 0 ≤ maxBytes)
    {c : Cache V σ} (hc : Reachable maxBytes onEvicted env c) (key : String) (value : V) :
    (∃ c', Add (Len (addEntry c key value)) c key value = some c') ∧
    (∀ fuel c', Add fuel c key value = some c' →
      c'.removeCalls ≤ c.removeCalls + Len (addEntry c key value)) := by
  obtain ⟨hi, hm⟩ := Reachable_Inv hc
  have hi' := Inv_addEntry hi key value
  have hm' : 0 ≤ (addEntry c key value).maxBytes := by
    rw [addEntry_maxBytes, hm]
    exact hmax
  constructor
  · exact evictLoop_terminates _ hi' hm' (le_refl _)
  · intro fuel c' h
    unfold Add at h
    have := evictLoop_calls fuel hi' hm' h
    rw [(addEntry_removeCalls c key value).1] at this
    unfold Len
    omega

/-- Witness of C20: `Add("c","3")` on a store of capacity 4 that holds `b` and `a`. -/
theorem eviction_terminates_witness :
    ∃ c', Add 3 (addEntry (addEntry (New 4 none () : Cache String Unit) "a" "1") "b" "2")
        "c" "3" = some c' :=
  (eviction_terminates 4 none () (by decide)
    (Reachable.add 0 "b" "2" (Reachable.add 0 "a" "1" Reachable.new rfl) rfl) "c" "3").1

end lru


/-! ## The unbounded store -/

namespace lru

variable {V σ : Type}

theorem entries_addEntry [Value V] {c : Cache V σ} (hi : Inv c) (k : String) (v : V) :
    entries (addEntry c k v) = (k, v) :: (entries c).filter (fun p => !decide (p.1 = k)) := by
  by_cases hk : k ∈ (entries c).map Prod.fst
  · obtain ⟨⟨k', old⟩, hmem, rfl⟩ := List.mem_map.mp hk
    exact (entries_addEntry_hit hi hmem v).1
  · rw [(entries_addEntry_miss hi hk v).1]
    congr 1
    symm
    rw [List.filter_eq_self]
    intro p hp
    simp only [Bool.not_eq_true', decide_eq_false_iff_not]
    intro hpk
    exact hk (List.mem_map.mpr ⟨p, hp, hpk⟩)

theorem Get_fst_congr [Value V] {c₁ c₂ : Cache V σ} (h₁ : Inv c₁) (h₂ : Inv c₂) (k : String)
    (h : ∀ w, (k, w) ∈ entries c₁ ↔ (k, w) ∈ entries c₂) : (Get c₁ k).1 = (Get c₂ k).1 := by
  apply Option.ext
  intro w
  rw [Option.mem_def, Option.mem_def, Get_fst_some_iff h₁, Get_fst_some_iff h₂]
  exact h w

theorem Get_addEntry [Value V] {c : Cache V σ} (hi : Inv c) (k : String) (v : V)
    (k₀ : String) :
    (Get (addEntry c k v) k₀).1 = if k = k₀ then some v else (Get c k₀).1 := by
  apply Option.ext
  intro w
  rw [Option.mem_def, Option.mem_def, Get_fst_some_iff (Inv_addEntry hi k v), entries_addEntry hi]
  by_cases hk : k = k₀
  · subst hk
    simp [List.mem_filter]
    exact eq_comm
  · rw [if_neg hk, Get_fst_some_iff hi]
    simp [List.mem_filter, hk, Ne.symm hk]

theorem Get_Get [Value V] {c : Cache V σ} (hi : Inv c) (k k₀ : String) :
    (Get (Get c k).2 k₀).1 = (Get c k₀).1 := by
  apply Get_fst_congr (Inv_Get hi k) hi
  intro w
  by_cases hk : k ∈ (entries c).map Prod.fst
  · obtain ⟨⟨k', v⟩, hmem, rfl⟩ := List.mem_map.mp hk
    rw [(entries_Get_hit hi hmem).2.1]
    have hnd : ((entries c).map Prod.fst).Nodup := by
      rw [keys_entries]
      exact hi.keys_nodup
    exact (filter_ne_perm (fun p : String × V => p.1) hnd hmem).mem_iff
  · rw [entries_Get_miss hi hk]

theorem Add_unbounded [Value V] {c : Cache V σ} (h0 : c.maxBytes = 0) (fuel : Nat)
    (k : String) (v : V) : Add fuel c k v = some (addEntry c k v) := by
  unfold Add
  apply evictLoop_zero_or_fits
  rintro ⟨hne, _⟩
  rw [addEntry_maxBytes] at hne
  exact hne h0

theorem runCalls_unbounded [Value V] (fuel : Nat) (calls : List (Call V)) :
    ∀ c : Cache V σ, Inv c → c.maxBytes = 0 →
      ∃ c', runCalls fuel c calls = some c' ∧ Inv c' ∧ c'.maxBytes = 0
        ∧ c'.removeCalls = c.removeCalls ∧ c'.env = c.env
        ∧ ∀ k, (Get c' k).1 = match lastAdded calls k with
            | some w => some w
            | none => (Get c k).1 := by
  induction calls with
  | nil =>
    intro c hi h0
    exact ⟨c, rfl, hi, h0, rfl, rfl, fun k => rfl⟩
  | cons call rest ih =>
    intro c hi h0
    cases call with
    | add k v =>
      obtain ⟨c', h1, h2, h3, h4, h5, h6⟩ := ih (addEntry c k v) (Inv_addEntry hi k v)
        (by rw [addEntry_maxBytes]; exact h0)
      refine ⟨c', ?_, h2, h3, h4.trans (addEntry_removeCalls c k v).1,
        h5.trans (addEntry_removeCalls c k v).2, ?_⟩
      · rw [runCalls, Add_unbounded h0]
        exact h1
      · intro k₀
        rw [h6 k₀, Get_addEntry hi]
        simp only [lastAdded]
        cases lastAdded rest k₀ with
        | some w => rfl
        | none => by_cases hk : k = k₀ <;> simp [hk]
    | get k =>
      obtain ⟨c', h1, h2, h3, h4, h5, h6⟩ := ih (Get c k).2 (Inv_Get hi k)
        (by rw [Get_maxBytes]; exact h0)
      refine ⟨c', ?_, h2, h3, h4.trans (Get_removeCalls c k).1,
        h5.trans (Get_removeCalls c k).2, ?_⟩
      · rw [runCalls]
        exact h1
      · intro k₀
        rw [h6 k₀, Get_Get hi]
        simp only [lastAdded]

theorem lastAdded_isSome_iff (calls : List (Call V)) (k : String) :
    (lastAdded calls k).isSome ↔ k ∈ addedKeys calls := by
  induction calls with
  | nil => simp [lastAdded, addedKeys]
  | cons call rest ih =>
    cases call with
    | add k' v =>
      simp only [lastAdded, addedKeys, List.mem_cons]
      rw [← ih]
      cases lastAdded rest k with
      | some w => simp
      | none =>
        by_cases hk : k' = k
        · simp [hk]
        · simp [hk, Ne.symm hk]
    | get k' =>
      simp only [lastAdded, addedKeys]
      exact ih

/-- C12 (unbounded sentinel). On a store built with `maxBytes = 0`, every sequence of
calls of `Add` and `Get` returns, with any fuel, without a single call of
`RemoveOldest` and without any effect of `OnEvicted`; afterwards `Get(k)` finds, for
every key, the value of the last `Add(k, _)` of the sequence (and misses when there was
none), and `Len()` is the number of distinct keys added. -/
theorem unbounded_never_evicts [Value V] (onEvicted : Option (Callback V σ))
    (env : σ) (calls : List (Call V)) (fuel : Nat) :
    ∃ c', runCalls fuel (New 0 onEvicted env) calls = some c' ∧
      c'.removeCalls = 0 ∧ c'.env = env ∧
      (∀ k, (Get c' k).1 = lastAdded calls k) ∧
      Len c' = (addedKeys calls).dedup.length := by
  obtain ⟨c', h1, h2, _, h4, h5, h6⟩ :=
    runCalls_unbounded fuel calls (New 0 onEvicted env) (Inv_New _ _ _) rfl
  have hget : ∀ k, (Get c' k).1 = lastAdded calls k := by
    intro k
    rw [h6 k]
    cases lastAdded calls k <;> rfl
  refine ⟨c', h1, h4, h5, hget, ?_⟩
  have hnd : ((entries c').map Prod.fst).Nodup := by
    rw [keys_entries]
    exact h2.keys_nodup
  have hmem : ∀ k, k ∈ (entries c').map Prod.fst ↔ k ∈ (addedKeys calls).dedup := by
    intro k
    rw [List.mem_dedup, ← lastAdded_isSome_iff, ← hget k, Option.isSome_iff_exists]
    constructor
    · intro hk
      obtain ⟨⟨k', v⟩, hp, rfl⟩ := List.mem_map.mp hk
      exact ⟨v, (Get_fst_some_iff h2 _ _).mpr hp⟩
    · rintro ⟨v, hv⟩
      exact List.mem_map.mpr ⟨(k, v), (Get_fst_some_iff h2 _ _).mp hv, rfl⟩
  have hperm := (List.perm_ext_iff_of_nodup hnd (List.nodup_dedup _)).mpr hmem
  rw [Len_eq_entries_length, ← hperm.length_eq, List.length_map]

end lru


/-! ## `Get` right after `Add` -/

namespace lru

variable {V σ : Type}

theorem suffix_snoc_cases {α : Type} {S A : List α} {x : α} (h : S <:+ A ++ [x]) :
    S = [] ∨ ∃ S', S = S' ++ [x] ∧ S' <:+ A := by
  rcases List.eq_nil_or_concat S with hn | ⟨S', y, hS⟩
  · exact Or.inl hn
  · right
    rw [List.concat_eq_append] at hS
    obtain ⟨t, ht⟩ := h
    rw [hS, ← List.append_assoc] at ht
    obtain ⟨h1, h2⟩ := List.append_inj' ht (by simp)
    simp only [List.cons.injEq, and_true] at h2
    exact ⟨S', by rw [hS, h2], ⟨t, h1⟩⟩

theorem fitting_suffix_of_snoc [Value V] (maxBytes : Int) (hmax : 0 ≤ maxBytes)
    (A : List (String × V)) (hnn : ∀ p ∈ A, 0 ≤ Value.Len p.2) (x : String × V) :
    (len x.1 + Value.Len x.2 ≤ maxBytes → x ∈ longestFittingSuffix maxBytes (A ++ [x])) ∧
    (maxBytes < len x.1 + Value.Len x.2 → longestFittingSuffix maxBytes (A ++ [x]) = []) := by
  have hspec := longestFittingSuffix_spec maxBytes hmax (A ++ [x])
  have hcases := suffix_snoc_cases hspec.suffix
  constructor
  · intro hfit
    have hlen := hspec.longest [x] (List.suffix_append A [x]) (by
      rw [totalCost_cons]
      have h0 : totalCost ([] : List (String × V)) = 0 := rfl
      omega)
    rcases hcases with hn | ⟨S', hS, _⟩
    · rw [hn] at hlen
      simp at hlen
    · rw [hS]
      simp
  · intro hover
    rcases hcases with hn | ⟨S', hS, hsuf⟩
    · exact hn
    · have hf := hspec.fits
      rw [hS, totalCost_append, totalCost_cons] at hf
      have h0 : totalCost ([] : List (String × V)) = 0 := rfl
      have h1 := totalCost_nonneg S' (fun q hq => hnn q (hsuf.subset hq))
      omega

theorem totalCost_filter_le [Value V] (f : String × V → Bool) (l : List (String × V))
    (hnn : ∀ p ∈ l, 0 ≤ Value.Len p.2) : totalCost (l.filter f) ≤ totalCost l := by
  induction l with
  | nil => exact le_refl _
  | cons p l ih =>
    have h3 := ih (fun q hq => hnn q (List.mem_cons_of_mem _ hq))
    have h1 := len_nonneg p.1
    have h2 := hnn p (List.mem_cons_self _ _)
    rw [List.filter_cons]
    split
    · rw [totalCost_cons, totalCost_cons]
      omega
    · rw [totalCost_cons]
      omega

theorem totalCost_reverse [Value V] (l : List (String × V)) :
    totalCost l.reverse = totalCost l := by
  unfold totalCost
  rw [List.map_reverse, List.sum_reverse]

/-- C19 (`Get` right after `Add`), for a value `v` of non-negative `Len`. On a reachable
store with `maxBytes ≥ 0`, `Add(k, v)` returns, and `Get(k)` right after it returns
`(v, true)` whenever `maxBytes == 0` or `len(k) + v.Len() ≤ maxBytes`. When moreover the
values the store holds have a non-negative `Len` and the total cost of the store with
`len(k) + v.Len()` added is at most `MaxInt64`, `Get(k)` returns `(v, true)` only then,
and when the entry alone costs more than a positive `maxBytes`, `Add` leaves the store
without any entry and `Get(k)` misses. -/
theorem Add_then_Get [Value V] (maxBytes : Int)
    (onEvicted : Option (Callback V σ)) (env : σ) (hmax : 0 ≤ maxBytes)
    {c : Cache V σ} (hc : Reachable maxBytes onEvicted env c) (k : String) (v : V)
    (hv : 0 ≤ Value.Len v) :
    (∃ c', Add (Len c + 1) c k v = some c') ∧
    (∀ fuel c', Add fuel c k v = some c' →
      ((maxBytes = 0 ∨ len k + Value.Len v ≤ maxBytes) → (Get c' k).1 = some v) ∧
      ((∀ p ∈ entries c, 0 ≤ Value.Len p.2) →
        totalCost (entries c) + (len k + Value.Len v) ≤ MaxInt64 →
        ((Get c' k).1 = some v ↔ (maxBytes = 0 ∨ len k + Value.Len v ≤ maxBytes)) ∧
        (0 < maxBytes → maxBytes < len k + Value.Len v →
          entries c' = [] ∧ Len c' = 0 ∧ (Get c' k).1 = none))) := by
  obtain ⟨hi, hm⟩ := Reachable_Inv hc
  have hi' := Inv_addEntry hi k v
  have hm' : (addEntry c k v).maxBytes = maxBytes := by rw [addEntry_maxBytes, hm]
  constructor
  · exact evictLoop_terminates (Len c + 1) hi' (by rw [hm']; exact hmax)
      (addEntry_length_le hi k v)
  · intro fuel c' hadd
    have hif : (maxBytes = 0 ∨ len k + Value.Len v ≤ maxBytes) → (Get c' k).1 = some v := by
      intro hfit
      refine Add_stores hi ?_ hadd
      rw [hm]
      rcases hfit with h0 | hle
      · exact Or.inl h0
      · right
        have h1 := len_nonneg k
        exact le_trans (wrap64_le_of_nonneg (show 0 ≤ len k + Value.Len v by omega)) hle
    refine ⟨hif, ?_⟩
    intro hstored hsum
    rcases eq_or_lt_of_le hmax with h0 | hpos
    · constructor
      · exact ⟨fun _ => Or.inl h0.symm, hif⟩
      · intro hlt
        omega
    · have hT : entries (addEntry c k v)
          = (((entries c).filter (fun p => !decide (p.1 = k))).reverse ++ [(k, v)]).reverse := by
        rw [entries_addEntry hi, List.reverse_append, List.reverse_reverse]
        rfl
      have hnnA : ∀ q ∈ ((entries c).filter (fun p => !decide (p.1 = k))).reverse,
          0 ≤ Value.Len q.2 :=
        fun q hq => hstored q (List.mem_filter.mp (List.mem_reverse.mp hq)).1
      have hnnT : ∀ q ∈ ((entries c).filter (fun p => !decide (p.1 = k))).reverse ++ [(k, v)],
          0 ≤ Value.Len q.2 := by
        intro q hq
        rcases List.mem_append.mp hq with h | h
        · exact hnnA q h
        · simp only [List.mem_singleton] at h
          rw [h]
          exact hv
      have hsumT : totalCost
          (((entries c).filter (fun p => !decide (p.1 = k))).reverse ++ [(k, v)])
            ≤ MaxInt64 := by
        have h1 := totalCost_filter_le (fun p : String × V => !decide (p.1 = k)) (entries c)
          hstored
        have h3 : totalCost [(k, v)] = len k + Value.Len v := by simp [totalCost]
        rw [totalCost_append, totalCost_reverse, h3]
        omega
      obtain ⟨c'', h1, h2, _, h4⟩ := evictLoop_spec _ _ (addEntry c k v) hi'
        (by rw [hm']; exact hpos) hT hnnT hsumT (le_refl _)
      have heq : c' = c'' := evictLoop_unique hadd h1
      subst heq
      rw [hm'] at h4
      have hf := fitting_suffix_of_snoc maxBytes hmax
        ((entries c).filter (fun p => !decide (p.1 = k))).reverse hnnA (k, v)
      have f2 : maxBytes < len k + Value.Len v → longestFittingSuffix maxBytes
          (((entries c).filter (fun p => !decide (p.1 = k))).reverse ++ [(k, v)]) = [] := hf.2
      constructor
      · refine ⟨?_, hif⟩
        rw [Get_fst_some_iff h2, h4, List.mem_reverse]
        intro hmem
        right
        by_contra hnot
        rw [f2 (by omega)] at hmem
        cases hmem
      · intro _ hover
        have hnil : entries c' = [] := by rw [h4, f2 hover]; rfl
        refine ⟨hnil, by rw [Len_eq_entries_length, hnil]; rfl, ?_⟩
        rw [entries_Get_miss h2 (by rw [hnil]; simp)]

/-- Witness of C19: an entry of cost 6 added to a store of capacity 4 that holds `a`. -/
theorem Add_then_Get_witness :
    ∃ c', Add 2 (addEntry (New 4 none () : Cache String Unit) "a" "1") "b" "22222" = some c'
      ∧ ((Get c' "b").1 = some "22222" ↔ ((4 : Int) = 0 ∨ len "b" + Value.Len "22222" ≤ 4))
      ∧ entries c' = [] := by
  have h := Add_then_Get 4 none () (by decide)
    (Reachable.add 0 "a" "1" Reachable.new rfl) "b" "22222" (by decide)
  obtain ⟨c', hc'⟩ := h.1
  have h2 := (h.2 2 c' hc').2 (by decide) (by decide)
  exact ⟨c', hc', h2.1, (h2.2 (by decide) (by decide)).1⟩

/-- Counterexample to C19 as stated, in two parts. On a fresh store of capacity 10, `Add`
of `a` with a value of `Len` `MaxInt64` wraps `nbytes` to `MinInt64`, so nothing is
evicted and `Get("a")` hits, although the entry costs more than 10. On the store of
capacity 10 that holds `b` with a value of `Len` -100, `Add` of `a` with a value of `Len`
50 brings `nbytes` to -48, so nothing is evicted and `Get("a")` hits, although the entry
costs 51. -/
theorem Add_then_Get_counterexample :
    (∃ c' : Cache Int Unit,
      Add 0 (New 10 none ()) "a" 9223372036854775807 = some c' ∧
      (Get c' "a").1 = some 9223372036854775807 ∧
      c'.nbytes = -9223372036854775808 ∧
      ¬ ((10 : Int) = 0 ∨ len "a" + Value.Len (9223372036854775807 : Int) ≤ 10) ∧
      (10 : Int) < len "a" + Value.Len (9223372036854775807 : Int) ∧
      entries c' ≠ []) ∧
    (∃ c1 c2 : Cache Int Unit,
      Add 0 (New 10 none ()) "b" (-100) = some c1 ∧
      Add 0 c1 "a" 50 = some c2 ∧
      (Get c2 "a").1 = some 50 ∧
      c2.nbytes = -48 ∧
      ¬ ((10 : Int) = 0 ∨ len "a" + Value.Len (50 : Int) ≤ 10) ∧
      (10 : Int) < len "a" + Value.Len (50 : Int) ∧
      entries c2 ≠ []) :=
  ⟨⟨_, rfl, by decide, by decide, by decide, by decide, by decide⟩,
   ⟨_, _, rfl, rfl, by decide, by decide, by decide, by decide, by decide⟩⟩

end lru


/-! ## What one `Add` does to the ring -/

namespace consistenthash

theorem Add_keys_perm (m : Map) (ps : List String) :
    List.Perm (Add m ps).keys (m.keys ++ ps.flatMap (virtualNodes m.hash m.replicas)) := by
  obtain ⟨_, _, h3, _, _⟩ := foldl_addKey ps ps m (fun _ h => h)
  show List.Perm (sortInts (ps.foldl addKey m).keys) _
  rw [h3]
  exact List.perm_insertionSort _ _

theorem virtualNodes_length (fn : Hash) (replicas : Int) (peer : String) :
    (virtualNodes fn replicas peer).length = replicas.toNat := by
  simp [virtualNodes]

theorem flatMap_virtualNodes_length (fn : Hash) (replicas : Int) (ps : List String) :
    (ps.flatMap (virtualNodes fn replicas)).length = replicas.toNat * ps.length := by
  induction ps with
  | nil => simp
  | cons p ps ih =>
    rw [List.flatMap_cons, List.length_append, ih, virtualNodes_length, List.length_cons]
    ring

theorem build_snoc (replicas : Int) (fn : Option Hash) (batches : List (List String))
    (ps : List String) :
    build replicas fn (batches ++ [ps]) = Add (build replicas fn batches) ps := by
  simp [build, List.foldl_append]

/-- C16 (sorted ring), with the count of new entries stated for every replica count. After
each call `Add(ps...)` on a ring built by `New` and calls of `Add`, the ring is sorted in
non-decreasing order; it holds the previous ring values and the virtual nodes of the
names passed, that is `max(replicas, 0)` more entries per name passed (`replicas` more
when `replicas ≥ 0`, none when `replicas` is negative); and every ring value is a key of
`hashMap`. -/
theorem Add_ring_invariant (replicas : Int) (fn : Option Hash) (batches : List (List String))
    (ps : List String) :
    (Add (build replicas fn batches) ps).keys.Sorted (fun a b => a ≤ b) ∧
    List.Perm (Add (build replicas fn batches) ps).keys
      ((build replicas fn batches).keys
        ++ ps.flatMap (virtualNodes (build replicas fn batches).hash replicas)) ∧
    (Add (build replicas fn batches) ps).keys.length
      = (build replicas fn batches).keys.length + replicas.toNat * ps.length ∧
    (0 ≤ replicas → ((Add (build replicas fn batches) ps).keys.length : Int)
      = (build replicas fn batches).keys.length + replicas * ps.length) ∧
    (replicas < 0 → (Add (build replicas fn batches) ps).keys.length
      = (build replicas fn batches).keys.length) ∧
    (∀ h ∈ (Add (build replicas fn batches) ps).keys,
      h ∈ (Add (build replicas fn batches) ps).hashMap.map Prod.fst) := by
  obtain ⟨hinv, _, hb⟩ := build_inv replicas fn batches
  have hperm := Add_keys_perm (build replicas fn batches) ps
  rw [hb] at hperm
  have hinv' := RingInv_Add hinv ps
  have hlen : (Add (build replicas fn batches) ps).keys.length
      = (build replicas fn batches).keys.length + replicas.toNat * ps.length := by
    rw [hperm.length_eq, List.length_append, flatMap_virtualNodes_length]
  refine ⟨hinv'.sorted, hperm, hlen, ?_, ?_, ?_⟩
  · intro h0
    rw [hlen]
    push_cast
    rw [Int.toNat_of_nonneg h0]
  · intro hneg
    rw [hlen]
    have : replicas.toNat = 0 := by omega
    rw [this]
    simp
  · intro h hh
    rw [← GoMap.lookup_isSome_iff]
    exact hinv'.indexed h hh

/-- Witness of C16: two replicas of `a` and `bc` added to a ring that holds `d`. -/
theorem Add_ring_invariant_witness :
    ((Add (build 2 (some String.length) [["d"]]) ["a", "bc"]).keys.length : Int)
      = (build 2 (some String.length) [["d"]]).keys.length + 2 * ["a", "bc"].length :=
  (Add_ring_invariant 2 (some String.length) [["d"]] ["a", "bc"]).2.2.2.1 (by decide)

/-- Counterexample to C16 as stated (any replica count): with `replicas = -1` the call
`Add("a")` adds no entry to the ring, not `replicas` entries. -/
theorem Add_ring_invariant_counterexample :
    (Add (build (-1) none []) ["a"]).keys.length = 0 ∧
    ((Add (build (-1) none []) ["a"]).keys.length : Int)
      ≠ (build (-1) none []).keys.length + (-1) * ["a"].length := by
  decide

/-- C17 (harmless re-add), with the count of new entries stated for every replica count.
On a ring built by `New` and calls of `Add` on which no two virtual nodes of different
peers have the same hash, adding again a name `p` that was added before leaves `Get(k)`
unchanged for every key; the ring then holds its previous values and, once more, the
virtual nodes of `p`, all of which were on the ring already: `max(replicas, 0)`
additional duplicate entries. -/
theorem Add_again_harmless (replicas : Int) (fn : Option Hash) (batches : List (List String))
    (p : String) (hp : p ∈ batches.flatten)
    (hnc : ∀ p ∈ batches.flatten, ∀ q ∈ batches.flatten, ∀ h,
      h ∈ virtualNodes (New replicas fn).hash replicas p →
      h ∈ virtualNodes (New replicas fn).hash replicas q → p = q) :
    (∀ key, Get (Add (build replicas fn batches) [p]) key
      = Get (build replicas fn batches) key) ∧
    List.Perm (Add (build replicas fn batches) [p]).keys
      ((build replicas fn batches).keys
        ++ virtualNodes (build replicas fn batches).hash replicas p) ∧
    (∀ h ∈ virtualNodes (build replicas fn batches).hash replicas p,
      h ∈ (build replicas fn batches).keys) ∧
    (Add (build replicas fn batches) [p]).keys.length
      = (build replicas fn batches).keys.length + replicas.toNat ∧
    (0 ≤ replicas → ((Add (build replicas fn batches) [p]).keys.length : Int)
      = (build replicas fn batches).keys.length + replicas) := by
  obtain ⟨hinv, _, hb⟩ := build_inv replicas fn batches
  have hperm := Add_keys_perm (build replicas fn batches) [p]
  rw [hb] at hperm
  simp only [List.flatMap_cons, List.flatMap_nil, List.append_nil] at hperm
  have hlen : (Add (build replicas fn batches) [p]).keys.length
      = (build replicas fn batches).keys.length + replicas.toNat := by
    rw [hperm.length_eq, List.length_append, virtualNodes_length]
  refine ⟨?_, hperm, ?_, hlen, ?_⟩
  · intro key
    rw [← build_snoc]
    symm
    apply Get_same_names replicas fn batches (batches ++ [[p]]) _ hnc key
    intro q
    simp only [List.flatten_append, List.flatten_cons, List.flatten_nil, List.append_nil,
      List.mem_append, List.mem_singleton]
    constructor
    · intro hq
      exact Or.inl hq
    · rintro (hq | rfl)
      · exact hq
      · exact hp
  · intro h hh
    rw [mem_keys_iff hinv]
    rw [hb]
    exact ⟨p, hp, hh⟩
  · intro h0
    rw [hlen]
    push_cast
    rw [Int.toNat_of_nonneg h0]

/-- Witness of C17: the peer `a` added again to the ring of `a` and `bc`. -/
theorem Add_again_harmless_witness :
    Get (Add (build 2 (some String.length) [["a", "bc"]]) ["a"]) "xyz"
      = Get (build 2 (some String.length) [["a", "bc"]]) "xyz" :=
  (Add_again_harmless 2 (some String.length) [["a", "bc"]] "a" (by decide) (by decide)).1
    "xyz"

/-- Counterexample to C17 as stated: on a ring with `replicas = -2` to which `a` was
added, adding `a` again adds no entry, not `replicas` entries. -/
theorem Add_again_harmless_counterexample :
    (Add (build (-2) none [["a"]]) ["a"]).keys.length = 0 ∧
    ((Add (build (-2) none [["a"]]) ["a"]).keys.length : Int)
      ≠ (build (-2) none [["a"]]).keys.length + (-2) := by
  decide

end consistenthash


/-! ## The status codes of `ServeHTTP` -/

namespace gocache

variable {ε σ : Type}

theorem ServeHTTP_malformed (fuel : Nat) (describe : ε → String) (p : HTTPPool)
    (groups : List (String × Group ε σ)) (path : String)
    (hpre : p.basePath.toList.isPrefixOf path.toList = true)
    (hparts : (splitAtSlash (String.mk (path.toList.drop p.basePath.toList.length))).length
      ≠ 2) :
    HTTPPool.ServeHTTP fuel describe p groups path
      = some (Served.replied (httpError "bad request" StatusBadRequest) groups) := by
  unfold HTTPPool.ServeHTTP
  simp only [hpre, Bool.not_true, Bool.false_eq_true, if_false]
  rw [if_pos hparts]

theorem ServeHTTP_parts (fuel : Nat) (describe : ε → String) (p : HTTPPool)
    (groups : List (String × Group ε σ)) (path : String)
    (hpre : p.basePath.toList.isPrefixOf path.toList = true) {groupName key : String}
    (hparts : splitAtSlash (String.mk (path.toList.drop p.basePath.toList.length))
      = [groupName, key]) :
    HTTPPool.ServeHTTP fuel describe p groups path
      = match GetGroup groups groupName with
        | none =>
          some (Served.replied (httpError ("no such group: " ++ groupName) StatusNotFound)
            groups)
        | some group =>
          match group.Get fuel key with
          | none => none
          | some ((_, some err), group') =>
            some (Served.replied (httpError (err.Error describe) StatusInternalServerError)
              (GoMap.insert groups groupName group'))
          | some ((view, none), group') =>
            some (Served.replied
              { status := StatusOK, contentType := "application/octet-stream",
                body := Body.bytes view.ByteSlice }
              (GoMap.insert groups groupName group')) := by
  unfold HTTPPool.ServeHTTP
  simp only [hpre, Bool.not_true, Bool.false_eq_true, if_false, hparts]
  rfl

/-- C14 (status codes at the transport), as the code maps them. For a request whose path
starts with the base path, `ServeHTTP` answers a path without a second segment after the
base with 400 and an unknown group name with 404 (both 4xx); it answers every error that
`Group.Get` returns with 500, a loader failure and the empty key alike; and a value with
200. -/
theorem ServeHTTP_status (fuel : Nat) (describe : ε → String) (p : HTTPPool)
    (groups : List (String × Group ε σ)) (path : String)
    (hpre : p.basePath.toList.isPrefixOf path.toList = true) :
    ((splitAtSlash (String.mk (path.toList.drop p.basePath.toList.length))).length ≠ 2 →
      ∃ r, HTTPPool.ServeHTTP fuel describe p groups path = some (Served.replied r groups)
        ∧ r.status = 400) ∧
    (∀ groupName key,
      splitAtSlash (String.mk (path.toList.drop p.basePath.toList.length))
        = [groupName, key] →
      (GetGroup groups groupName = none →
        ∃ r, HTTPPool.ServeHTTP fuel describe p groups path = some (Served.replied r groups)
          ∧ r.status = 404) ∧
      (∀ g view err g', GetGroup groups groupName = some g →
        Group.Get fuel g key = some ((view, some err), g') →
        ∃ r gs, HTTPPool.ServeHTTP fuel describe p groups path = some (Served.replied r gs)
          ∧ r.status = 500) ∧
      (∀ g, GetGroup groups groupName = some g → key = "" →
        ∃ r gs, HTTPPool.ServeHTTP fuel describe p groups path = some (Served.replied r gs)
          ∧ r.status = 500) ∧
      (∀ g bytes e w', GetGroup groups groupName = some g → key ≠ "" →
        (g.mainCache.get key).1 = none → g.getter key g.world = ((bytes, some e), w') →
        ∃ r gs, HTTPPool.ServeHTTP fuel describe p groups path = some (Served.replied r gs)
          ∧ r.status = 500) ∧
      (∀ g view g', GetGroup groups groupName = some g →
        Group.Get fuel g key = some ((view, none), g') →
        ∃ r gs, HTTPPool.ServeHTTP fuel describe p groups path = some (Served.replied r gs)
          ∧ r.status = 200)) := by
  refine ⟨fun hparts => ⟨_, ServeHTTP_malformed fuel describe p groups path hpre hparts, rfl⟩,
    ?_⟩
  intro groupName key hparts
  have hserve := ServeHTTP_parts fuel describe p groups path hpre hparts
  have herr : ∀ g view err g', GetGroup groups groupName = some g →
      Group.Get fuel g key = some ((view, some err), g') →
      ∃ r gs, HTTPPool.ServeHTTP fuel describe p groups path = some (Served.replied r gs)
        ∧ r.status = 500 := by
    intro g view err g' hg hget
    rw [hg] at hserve
    simp only [hget] at hserve
    exact ⟨_, _, hserve, rfl⟩
  refine ⟨?_, herr, ?_, ?_, ?_⟩
  · intro hnone
    rw [hnone] at hserve
    exact ⟨_, hserve, rfl⟩
  · intro g hg hkey
    subst hkey
    exact herr g _ _ g hg (Group.Get_empty_key fuel g)
  · intro g bytes e w' hg hk hmiss hload
    have hv : (lru.Get g.mainCache.store key).1 = none := hmiss
    have he : (g.getter key g.world).1.2 = some e := by rw [hload]
    exact herr g _ _ _ hg (Group.Get_uncached_err fuel g hk hv he)
  · intro g view g' hg hget
    rw [hg] at hserve
    simp only [hget] at hserve
    exact ⟨_, _, hserve, rfl⟩

/-- Witness of C14: the request for `/api/scores/bad`, on which the loader of the examples
fails. -/
theorem ServeHTTP_status_witness :
    ∃ r gs, HTTPPool.ServeHTTP 0 (fun _ => "failed") (NewHTTPPool "peer")
        [("scores", exampleGroup)] "/api/scores/bad" = some (Served.replied r gs)
      ∧ r.status = 500 :=
  ((ServeHTTP_status 0 (fun _ => "failed") (NewHTTPPool "peer") [("scores", exampleGroup)]
      "/api/scores/bad" (by decide)).2 "scores" "bad" (by decide)).2.2.2.1
    exampleGroup [] (GoError.other ()) () rfl (by decide) rfl rfl

/-- Counterexample to C14 as stated: the request for `/api/scores/` names a registered
group and the empty key; `Group.Get` rejects the key and `ServeHTTP` answers 500, which
is not a 4xx status. -/
theorem ServeHTTP_status_counterexample :
    ∃ r gs, HTTPPool.ServeHTTP 0 (fun _ => "failed") (NewHTTPPool "peer")
        [("scores", exampleGroup)] "/api/scores/" = some (Served.replied r gs)
      ∧ r.status = 500 ∧ ¬ (400 ≤ r.status ∧ r.status < 500)
      ∧ Group.Get 0 exampleGroup ""
          = some ((⟨[]⟩, some (GoError.errorf "key is empty")), exampleGroup) :=
  ⟨_, _, rfl, rfl, by decide, rfl⟩

end gocache

end GoCache
